import Mathlib

/-!
Verification development for a hand-written lexer, recursive-descent parser,
parse-tree evaluator and symbol table for the grammar

  E  -> T E14, E14 -> + T E14 | eps, T -> F T14, T14 -> * F T14 | eps, F -> ( E ) | id

(here E14 denotes the primed non-terminal).  The definitions below are a
shallow embedding of the Python sources in `core/token.py`, `core/lexer.py`,
`core/parser.py` and `core/symbol_table.py`.  Strings are modelled as lists of
characters where convenient; Python `str.isspace`, `str.isalnum`, `str.isdigit`
are modelled by the corresponding ASCII character predicates of Lean.
-/

namespace LexParse

/-- Token kinds, from `core/token.py` (`TokenType` string constants). -/
inductive TokenType where
  | PLUS
  | MULTIPLY
  | LPAREN
  | RPAREN
  | ID
  | INVALID
  | EOF
deriving DecidableEq, Repr

/-- The string constant behind each `TokenType` member (used for dict keys). -/
def TokenType.str : TokenType → String
  | .PLUS => "PLUS"
  | .MULTIPLY => "MULTIPLY"
  | .LPAREN => "LPAREN"
  | .RPAREN => "RPAREN"
  | .ID => "ID"
  | .INVALID => "INVALID"
  | .EOF => "EOF"

/-- A token, from `core/token.py` (`line`/`column` are derived display fields
and are omitted: `line` is always 1 and `column` is `position + 1`). -/
structure Token where
  type : TokenType
  value : String
  position : Nat
deriving DecidableEq, Repr

/-- `Token.is_valid` from `core/token.py`. -/
def Token.is_valid (t : Token) : Bool := t.type ≠ TokenType.INVALID

/-- A recorded lexical error: offending character and its position
(`utils/errors.py`, `LexicalError`). -/
structure LexicalError where
  position : Nat
  character : Char
deriving DecidableEq, Repr

/-- Failure modes of `Lexer.tokenize`: empty input, or the first recorded
lexical error. -/
inductive TokenizeError where
  | emptyInput
  | lexical (e : LexicalError)
deriving DecidableEq, Repr

/-- `Lexer.is_valid_character` from `core/lexer.py`. -/
def is_valid_character (c : Char) : Bool :=
  c.isAlphanum || c = '+' || c = '*' || c = '(' || c = ')' || c.isWhitespace

/-- The token produced for one character, following the branch order of
`Lexer._get_next_token` in `core/lexer.py`. -/
def charToken (c : Char) (pos : Nat) : Token :=
  if c = '+' then ⟨TokenType.PLUS, "+", pos⟩
  else if c = '*' then ⟨TokenType.MULTIPLY, "*", pos⟩
  else if c = '(' then ⟨TokenType.LPAREN, "(", pos⟩
  else if c = ')' then ⟨TokenType.RPAREN, ")", pos⟩
  else if c.isAlphanum then ⟨TokenType.ID, String.mk [c], pos⟩
  else ⟨TokenType.INVALID, String.mk [c], pos⟩

/-- The character scan loop of `Lexer.tokenize`: whitespace is skipped, every
other character yields a token, and invalid characters additionally record a
`LexicalError` (the scan does not stop there). -/
def scanChars : List Char → Nat → List Token × List LexicalError
  | [], _ => ([], [])
  | c :: rest, pos =>
    if c.isWhitespace then scanChars rest (pos + 1)
    else
      let t := charToken c pos
      let r := scanChars rest (pos + 1)
      (t :: r.1, if t.type = TokenType.INVALID then ⟨pos, c⟩ :: r.2 else r.2)

/-- Python `str.strip`: drop leading and trailing whitespace. -/
def pyStrip (s : List Char) : List Char :=
  ((s.dropWhile Char.isWhitespace).reverse.dropWhile Char.isWhitespace).reverse

/-- `Lexer.tokenize` from `core/lexer.py`: strip, fail on empty input, scan all
characters, then fail with the first recorded lexical error or return the
token list. -/
def tokenizeChars (input : List Char) : Except TokenizeError (List Token) :=
  let s := pyStrip input
  if s.isEmpty then Except.error TokenizeError.emptyInput
  else
    let r := scanChars s 0
    match r.2 with
    | [] => Except.ok r.1
    | e :: _ => Except.error (TokenizeError.lexical e)

/-- `Lexer.tokenize` on a Lean string. -/
def tokenize (s : String) : Except TokenizeError (List Token) :=
  tokenizeChars s.data

/-- A parse tree node, from `core/parser.py` (`ParseTreeNode`).  `depth` and
`node_id` are presentation-only fields and are omitted. -/
inductive Node where
  | node (rule : String) (token : Option Token) (value : Option Int) (children : List Node)
deriving Repr

/-- The `rule` field of a node. -/
def Node.rule : Node → String
  | .node r _ _ _ => r

/-- The `token` field of a node. -/
def Node.token : Node → Option Token
  | .node _ t _ _ => t

/-- The cached `value` field of a node. -/
def Node.value : Node → Option Int
  | .node _ _ v _ => v

/-- The `children` field of a node. -/
def Node.children : Node → List Node
  | .node _ _ _ cs => cs

/-- Errors raised by `Parser.parse` (`utils/errors.py`): unexpected end of
input (with the description of what was expected), syntax errors
(message, position, offending token, expected description) and semantic
errors (message, position, offending token, context).  `outOfFuel` is a
modelling artefact of the fuel-indexed recursion and is proved unreachable. -/
inductive ParseError where
  | unexpectedEndOfInput (expected : String)
  | syntaxError (message : String) (position : Option Nat) (found : Option Token)
      (expected : Option String)
  | semanticError (message : String) (position : Option Nat) (found : Option Token)
      (context : String)
  | outOfFuel
deriving DecidableEq, Repr

/-- Whether a token kind is an operator (Plus or Multiply). -/
def isOpType (t : TokenType) : Bool := t = TokenType.PLUS || t = TokenType.MULTIPLY

/-- The consecutive-operator scan of `Parser._perform_semantic_analysis`:
the first adjacent pair of operator tokens, if any. -/
def findConsecutive : List Token → Option (Token × Token)
  | a :: b :: rest =>
    if isOpType a.type && isOpType b.type then some (a, b)
    else findConsecutive (b :: rest)
  | _ => none

/-- The parenthesis-balance scan of `Parser._perform_semantic_analysis`:
walk the tokens with a running open-paren counter, failing as soon as the
counter would go negative, and otherwise returning the final counter. -/
def checkParens : List Token → Int → Except ParseError Int
  | [], n => Except.ok n
  | t :: rest, n =>
    if t.type = TokenType.LPAREN then checkParens rest (n + 1)
    else if t.type = TokenType.RPAREN then
      if n - 1 < 0 then
        Except.error (ParseError.semanticError "Unmatched closing parenthesis"
          (some t.position) (some t) "parentheses balance")
      else checkParens rest (n - 1)
    else checkParens rest n

/-- `Parser._perform_semantic_analysis` from `core/parser.py`: consecutive
operators, then operator at start, then operator at end, then parenthesis
balance; an empty token list passes (the caller already rejected it). -/
def performSemanticAnalysis (tokens : List Token) : Except ParseError Unit :=
  match tokens with
  | [] => Except.ok ()
  | t0 :: rest =>
    match findConsecutive (t0 :: rest) with
    | some (a, b) =>
      Except.error (ParseError.semanticError
        ("Consecutive operators \x27" ++ a.value ++ "\x27 and \x27" ++ b.value ++
          "\x27 are not allowed") (some a.position) (some a) "operator sequence")
    | none =>
      if isOpType t0.type then
        Except.error (ParseError.semanticError
          ("Expression cannot start with operator \x27" ++ t0.value ++ "\x27")
          (some t0.position) (some t0) "expression start")
      else
        let tn := (t0 :: rest).getLast (by simp)
        if isOpType tn.type then
          Except.error (ParseError.semanticError
            ("Expression cannot end with operator \x27" ++ tn.value ++ "\x27")
            (some tn.position) (some tn) "expression end")
        else
          match checkParens (t0 :: rest) 0 with
          | Except.error e => Except.error e
          | Except.ok n =>
            if n > 0 then
              Except.error (ParseError.semanticError
                (toString n ++ " unmatched opening parenthesis(es)") none none
                "parentheses balance")
            else Except.ok ()

/-- Failure propagation of the recursive-descent routines: a raised error in
a callee aborts the caller (Python exception propagation), otherwise the
caller continues with the returned node and the remaining tokens. -/
def pstep (x : Except ParseError (Node × List Token))
    (f : Node → List Token → Except ParseError (Node × List Token)) :
    Except ParseError (Node × List Token) :=
  match x with
  | Except.error e => Except.error e
  | Except.ok (n, r) => f n r

/-- The tail of `_parse_F` after the inner `E` of a parenthesised expression
has been parsed: build the `)` leaf and consume the closing parenthesis
(`_consume_token(RPAREN)` with its two failure branches). -/
def consumeRParenF (lp : Token) (eN : Node) :
    List Token → Except ParseError (Node × List Token)
  | [] => Except.error (ParseError.unexpectedEndOfInput "RPAREN")
  | r :: rest2 =>
    if r.type = TokenType.RPAREN then
      Except.ok (Node.node "F" none none
        [Node.node "(" (some lp) none [], eN,
          Node.node ")" (some r) none []], rest2)
    else
      Except.error (ParseError.syntaxError "Expected RPAREN"
        (some r.position) (some r) (some "RPAREN"))

mutual

/-- The recursive-descent routines `_parse_E`, `_parse_E_prime`, `_parse_T`,
`_parse_T_prime`, `_parse_F` of `core/parser.py`, modelled with the cursor as
the unconsumed suffix of the token list and a fuel parameter for the mutual
recursion (fuel exhaustion is proved unreachable for the fuel used by
`parseTokens`).  Terminal consumption (`_consume_token`) is inlined at its
call sites: where the routine has just tested the current token kind the
consume cannot fail, and for the closing parenthesis the two failure branches
of `_consume_token` are reproduced. -/
def parseE : Nat → List Token → Except ParseError (Node × List Token)
  | 0, _ => Except.error ParseError.outOfFuel
  | fuel + 1, ts =>
    pstep (parseT fuel ts) fun tN ts1 =>
      pstep (parseEPrime fuel ts1) fun eN ts2 =>
        Except.ok (Node.node "E" none none [tN, eN], ts2)

/-- See `parseE`. -/
def parseEPrime : Nat → List Token → Except ParseError (Node × List Token)
  | 0, _ => Except.error ParseError.outOfFuel
  | fuel + 1, ts =>
    match ts with
    | t :: rest =>
      if t.type = TokenType.PLUS then
        pstep (parseT fuel rest) fun tN ts1 =>
          pstep (parseEPrime fuel ts1) fun eN ts2 =>
            Except.ok (Node.node "E\x27" none none
              [Node.node "+" (some t) none [], tN, eN], ts2)
      else Except.ok (Node.node "E\x27" none none [], ts)
    | [] => Except.ok (Node.node "E\x27" none none [], [])

/-- See `parseE`. -/
def parseT : Nat → List Token → Except ParseError (Node × List Token)
  | 0, _ => Except.error ParseError.outOfFuel
  | fuel + 1, ts =>
    pstep (parseF fuel ts) fun fN ts1 =>
      pstep (parseTPrime fuel ts1) fun tN ts2 =>
        Except.ok (Node.node "T" none none [fN, tN], ts2)

/-- See `parseE`. -/
def parseTPrime : Nat → List Token → Except ParseError (Node × List Token)
  | 0, _ => Except.error ParseError.outOfFuel
  | fuel + 1, ts =>
    match ts with
    | t :: rest =>
      if t.type = TokenType.MULTIPLY then
        pstep (parseF fuel rest) fun fN ts1 =>
          pstep (parseTPrime fuel ts1) fun tN ts2 =>
            Except.ok (Node.node "T\x27" none none
              [Node.node "*" (some t) none [], fN, tN], ts2)
      else Except.ok (Node.node "T\x27" none none [], ts)
    | [] => Except.ok (Node.node "T\x27" none none [], [])

/-- See `parseE`. -/
def parseF : Nat → List Token → Except ParseError (Node × List Token)
  | 0, _ => Except.error ParseError.outOfFuel
  | fuel + 1, ts =>
    match ts with
    | [] => Except.error (ParseError.unexpectedEndOfInput "\x27(\x27 or identifier")
    | t :: rest =>
      if t.type = TokenType.LPAREN then
        pstep (parseE fuel rest) (consumeRParenF t)
      else if t.type = TokenType.ID then
        Except.ok (Node.node "F" none none
          [Node.node "id" (some t) none []], rest)
      else
        Except.error (ParseError.syntaxError "Expected \x27(\x27 or identifier"
          (some t.position) (some t) (some "\x27(\x27 or identifier"))

end

/-- Python `str.isdigit` on a token value (non-empty, all digits). -/
def strIsDigit (s : String) : Bool := !s.data.isEmpty && s.data.all Char.isDigit

/-- Python `int` on an all-digit string. -/
def strToInt (s : String) : Int :=
  (s.data.foldl (fun n c => n * 10 + (c.toNat - 48)) 0 : Nat)

/-- The expression `t_val + e_prime_val if e_prime_val is not None else t_val`
from `ParseTreeNode.evaluate`; adding an integer to Python `None` raises, which
is modelled by `Except.error`. -/
def condAdd (tv ev : Option Int) : Except Unit (Option Int) :=
  match ev with
  | none => Except.ok tv
  | some e =>
    match tv with
    | some t => Except.ok (some (t + e))
    | none => Except.error ()

/-- The expression `f_val * t_prime_val if t_prime_val is not None else f_val`
from the `T\x27 -> * F T\x27` branch of `ParseTreeNode.evaluate`. -/
def condMul (fv tv : Option Int) : Except Unit (Option Int) :=
  match tv with
  | none => Except.ok fv
  | some t =>
    match fv with
    | some f => Except.ok (some (f * t))
    | none => Except.error ()

/-- The expression
`f_val * t_prime_val if t_prime_val is not None and t_prime_val != 1 else f_val`
from the `T -> F T\x27` branch of `ParseTreeNode.evaluate`. -/
def condMulT (fv tv : Option Int) : Except Unit (Option Int) :=
  match tv with
  | none => Except.ok fv
  | some t =>
    if t ≠ 1 then
      match fv with
      | some f => Except.ok (some (f * t))
      | none => Except.error ()
    else Except.ok fv

mutual

/-- `ParseTreeNode.evaluate` from `core/parser.py`.  The Python method caches
the computed value on the node (`self.value = ...`) and returns it; this is
modelled by returning the updated node together with the returned value.
Branches that fall through in Python (`return self.value` with nothing
recomputed) return the node unchanged.  An arithmetic operation on `None`
(impossible for parser-built trees) is modelled by `Except.error`.  The
branch bodies are shared: the `E` and `T` branches both evaluate the first
two children and combine (with `condAdd` resp. `condMulT`); the `E\x27` and
`T\x27` branches both return their identity (0 resp. 1) on zero children and
otherwise skip the operator child at index 0 (combining with `condAdd` resp.
`condMul`); `F` is separate. -/
def evaluate : Node → Except Unit (Node × Option Int)
  | Node.node rule tok val children =>
    if (tok.map Token.type) = some TokenType.ID then
      match tok with
      | some t =>
        let v : Int := if strIsDigit t.value then strToInt t.value else 1
        Except.ok (Node.node rule tok (some v) children, some v)
      | none => Except.ok (Node.node rule tok val children, val)
    else if rule = "E" then evalBinary condAdd rule tok val children
    else if rule = "E\x27" then evalPrimed 0 condAdd rule tok val children
    else if rule = "T" then evalBinary condMulT rule tok val children
    else if rule = "T\x27" then evalPrimed 1 condMul rule tok val children
    else if rule = "F" then evalF rule tok val children
    else Except.ok (Node.node rule tok val children, val)

/-- The `E -> T E\x27` and `T -> F T\x27` branches of
`ParseTreeNode.evaluate`: evaluate the first two children and combine their
values. -/
def evalBinary (comb : Option Int → Option Int → Except Unit (Option Int))
    (rule : String) (tok : Option Token) (val : Option Int) :
    List Node → Except Unit (Node × Option Int)
  | c0 :: c1 :: rest =>
    match evaluate c0 with
    | Except.error e => Except.error e
    | Except.ok (c0sub, a) =>
      match evaluate c1 with
      | Except.error e => Except.error e
      | Except.ok (c1sub, b) =>
        match comb a b with
        | Except.error e => Except.error e
        | Except.ok v => Except.ok (Node.node rule tok v (c0sub :: c1sub :: rest), v)
  | cs => Except.ok (Node.node rule tok val cs, val)

/-- The `E\x27 -> + T E\x27 | eps` and `T\x27 -> * F T\x27 | eps` branches
of `ParseTreeNode.evaluate`: zero children yield the identity element, and
otherwise the operator child at index 0 is skipped (not evaluated). -/
def evalPrimed (base : Int)
    (comb : Option Int → Option Int → Except Unit (Option Int))
    (rule : String) (tok : Option Token) (val : Option Int) :
    List Node → Except Unit (Node × Option Int)
  | [] => Except.ok (Node.node rule tok (some base) [], some base)
  | c0 :: c1 :: c2 :: rest =>
    match evaluate c1 with
    | Except.error e => Except.error e
    | Except.ok (c1sub, a) =>
      match evaluate c2 with
      | Except.error e => Except.error e
      | Except.ok (c2sub, b) =>
        match comb a b with
        | Except.error e => Except.error e
        | Except.ok v => Except.ok (Node.node rule tok v (c0 :: c1sub :: c2sub :: rest), v)
  | [c0, c1] =>
    match evaluate c1 with
    | Except.error e => Except.error e
    | Except.ok (c1sub, a) => Except.ok (Node.node rule tok a [c0, c1sub], a)
  | cs => Except.ok (Node.node rule tok val cs, val)

/-- The `F -> ( E ) | id` branch of `ParseTreeNode.evaluate` (a single child
is the `id` case, three or more children is the parenthesised case where the
middle child is evaluated). -/
def evalF (rule : String) (tok : Option Token) (val : Option Int) :
    List Node → Except Unit (Node × Option Int)
  | [c0] =>
    match evaluate c0 with
    | Except.error e => Except.error e
    | Except.ok (c0sub, v) => Except.ok (Node.node rule tok v [c0sub], v)
  | c0 :: c1 :: c2 :: rest =>
    match evaluate c1 with
    | Except.error e => Except.error e
    | Except.ok (c1sub, v) => Except.ok (Node.node rule tok v (c0 :: c1sub :: c2 :: rest), v)
  | cs => Except.ok (Node.node rule tok val cs, val)

end

mutual

/-- `ParseTreeNode.get_tree_string` from `core/parser.py`: depth-first
indented rendering with box-drawing connectors; each line shows the rule (and
the token value for terminals) and the cached value when present. -/
def getTreeString : Node → String → Bool → String
  | Node.node rule tok val children, pre, isLast =>
    let connector := if isLast then "└── " else "├── "
    let base :=
      match tok with
      | some t => pre ++ connector ++ rule ++ ": \x27" ++ t.value ++ "\x27"
      | none => pre ++ connector ++ rule
    let withVal :=
      match val with
      | some v => base ++ " = " ++ toString v
      | none => base
    let childPre := pre ++ (if isLast then "    " else "│   ")
    withVal ++ "\n" ++ renderChildren children childPre

/-- The loop over `self.children` in `get_tree_string` (the last child gets
the closing connector). -/
def renderChildren : List Node → String → String
  | [], _ => ""
  | [c], pre => getTreeString c pre true
  | c :: c2 :: rest, pre =>
    getTreeString c pre false ++ renderChildren (c2 :: rest) pre

end

mutual

/-- The terminal leaves of a parse tree in left-to-right order: a node built
from a token is a leaf, and a non-terminal node contributes its children's
leaves in order. -/
def leafTokens : Node → List Token
  | Node.node _ (some t) _ _ => [t]
  | Node.node _ none _ cs => leafTokensList cs

/-- Leaves of a list of sibling nodes, left to right. -/
def leafTokensList : List Node → List Token
  | [] => []
  | c :: cs => leafTokens c ++ leafTokensList cs

end

/-- The fuel with which `parseTokens` runs the mutual recursion; proved
sufficient. -/
def parseFuel (ts : List Token) : Nat := 3 * ts.length + 3

/-- `Parser.parse` from `core/parser.py`: reject an empty token list, run the
semantic pre-checks, derive `E`, reject unconsumed trailing tokens, and
evaluate the tree.  The Python method stores the (evaluated) tree on the
parser object and returns `True`; this is modelled by returning the evaluated
root and its value.  A crash inside `evaluate` (impossible for parser-built
trees) is mapped to the generic wrapper error of the final `except` clause. -/
def parseTokens (tokens : List Token) : Except ParseError (Node × Option Int) :=
  match tokens with
  | [] => Except.error (ParseError.unexpectedEndOfInput "expression")
  | t0 :: rest =>
    match performSemanticAnalysis (t0 :: rest) with
    | Except.error e => Except.error e
    | Except.ok _ =>
      match parseE (parseFuel (t0 :: rest)) (t0 :: rest) with
      | Except.error e => Except.error e
      | Except.ok (root, remaining) =>
        match remaining with
        | r :: rs =>
          Except.error (ParseError.syntaxError
            ("Unexpected tokens at end of input: " ++
              String.intercalate ", " ((r :: rs).map Token.value))
            (some r.position) (some r) none)
        | [] =>
          match evaluate root with
          | Except.error _ =>
            Except.error (ParseError.syntaxError "Unexpected parsing error"
              none none none)
          | Except.ok (root2, v) => Except.ok (root2, v)

/-- The evaluation result of an accepted parse, `none` when parsing failed
(mirrors `Parser.get_evaluation_result`). -/
def parseValue (r : Except ParseError (Node × Option Int)) : Option (Option Int) :=
  match r with
  | Except.ok (_, v) => some v
  | Except.error _ => none

/-- Python `str.isalpha` on a token value. -/
def strIsAlpha (s : String) : Bool := !s.data.isEmpty && s.data.all Char.isAlpha

/-- Python `str.isupper` on a token value (all cased characters uppercase). -/
def strIsUpper (s : String) : Bool := !s.data.isEmpty && s.data.all Char.isUpper

/-- Python `str.islower` on a token value. -/
def strIsLower (s : String) : Bool := !s.data.isEmpty && s.data.all Char.isLower

/-- The attribute dictionary of `SymbolTableEntry._get_token_attributes` in
`core/symbol_table.py`, as a record of optional fields (absent key = `none`).
`caseKind` models the `case` key. -/
structure TokenAttributes where
  category : Option String
  numValue : Option Int
  caseKind : Option String
  precedence : Option Nat
  associativity : Option String
deriving DecidableEq, Repr

/-- `SymbolTableEntry._get_token_attributes` from `core/symbol_table.py`. -/
def getTokenAttributes (t : Token) : TokenAttributes :=
  if t.type = TokenType.ID then
    if strIsDigit t.value then ⟨some "NUMERIC", some (strToInt t.value), none, none, none⟩
    else if strIsAlpha t.value then
      if strIsUpper t.value then ⟨some "ALPHABETIC", none, some "UPPERCASE", none, none⟩
      else if strIsLower t.value then ⟨some "ALPHABETIC", none, some "LOWERCASE", none, none⟩
      else ⟨some "ALPHABETIC", none, none, none, none⟩
    else ⟨none, none, none, none, none⟩
  else if t.type = TokenType.PLUS || t.type = TokenType.MULTIPLY then
    ⟨some "OPERATOR", none, none,
      some (if t.type = TokenType.MULTIPLY then 2 else 1), some "LEFT"⟩
  else if t.type = TokenType.LPAREN || t.type = TokenType.RPAREN then
    ⟨some "DELIMITER", none, none, none, none⟩
  else ⟨none, none, none, none, none⟩

/-- `SymbolTableEntry` from `core/symbol_table.py`. -/
structure SymbolTableEntry where
  token_value : String
  token_type : TokenType
  count : Nat
  positions : List Nat
  first_occurrence : Nat
  attributes : TokenAttributes
deriving DecidableEq, Repr

/-- The `SymbolTableEntry` constructor body (first sighting of a token). -/
def SymbolTableEntry.ofToken (t : Token) : SymbolTableEntry :=
  ⟨t.value, t.type, 1, [t.position], t.position, getTokenAttributes t⟩

/-- `SymbolTableEntry.add_occurrence`. -/
def SymbolTableEntry.add_occurrence (e : SymbolTableEntry) (t : Token) : SymbolTableEntry :=
  { e with count := e.count + 1, positions := e.positions ++ [t.position] }

/-- The dictionary key of `SymbolTable.add_token`: `f"{token.value}_{token.type}"`. -/
def tokenKey (v : String) (k : TokenType) : String := v ++ "_" ++ k.str

/-- `SymbolTable` from `core/symbol_table.py`.  The Python `entries` dict is
insertion-ordered, modelled as an association list to which new keys are
appended; `token_types_count` is a `defaultdict(int)`, modelled as a total
function. -/
structure SymbolTable where
  entries : List (String × SymbolTableEntry)
  total_tokens : Nat
  unique_tokens : Nat
  token_types_count : TokenType → Nat

/-- The freshly initialised (or cleared) symbol table. -/
def SymbolTable.empty : SymbolTable := ⟨[], 0, 0, fun _ => 0⟩

/-- In-place update of the entry under an existing key (dict update preserves
insertion order). -/
def updateEntry : List (String × SymbolTableEntry) → String → Token →
    List (String × SymbolTableEntry)
  | [], _, _ => []
  | (k, e) :: rest, key, t =>
    if k = key then (k, e.add_occurrence t) :: rest
    else (k, e) :: updateEntry rest key t

/-- `SymbolTable.add_token` from `core/symbol_table.py`. -/
def SymbolTable.add_token (st : SymbolTable) (t : Token) : SymbolTable :=
  if !t.is_valid then st
  else
    let counted : SymbolTable :=
      { st with
        total_tokens := st.total_tokens + 1,
        token_types_count := fun k =>
          if k = t.type then st.token_types_count k + 1 else st.token_types_count k }
    let key := tokenKey t.value t.type
    match List.lookup key st.entries with
    | some _ => { counted with entries := updateEntry st.entries key t }
    | none =>
      { counted with
        entries := st.entries ++ [(key, SymbolTableEntry.ofToken t)],
        unique_tokens := st.unique_tokens + 1 }

/-- `SymbolTable.clear` from `core/symbol_table.py`. -/
def SymbolTable.clear (_st : SymbolTable) : SymbolTable := SymbolTable.empty

/-- One call made by a caller of the symbol table API. -/
inductive TableOp where
  | add (t : Token)
  | clear
deriving Repr

/-- Apply one API call to a table. -/
def applyOp (st : SymbolTable) : TableOp → SymbolTable
  | TableOp.add t => st.add_token t
  | TableOp.clear => st.clear

/-- The table resulting from a sequence of API calls on a fresh table. -/
def runOps (ops : List TableOp) : SymbolTable :=
  ops.foldl applyOp SymbolTable.empty

/-- The effect of one API call on the list of valid tokens added since the
last `clear`. -/
def validStep (acc : List Token) : TableOp → List Token
  | TableOp.add t => if t.is_valid then acc ++ [t] else acc
  | TableOp.clear => []

/-- The valid tokens added since the last `clear`, in call order. -/
def validSince (ops : List TableOp) : List Token :=
  ops.foldl validStep []

/-- The sum of the entry counts of a symbol table. -/
def sumCounts (es : List (String × SymbolTableEntry)) : Nat :=
  (es.map (fun p => p.2.count)).sum

/-- The symbol-table invariant over the valid tokens added since the last
clear: the entry under the key of a `(value, kind)` pair records its
occurrence count and its positions in insertion order; a pair that occurred
has an entry; and the aggregate counters agree with the entries. -/
def TableInv (st : SymbolTable) (vs : List Token) : Prop :=
  (∀ v k e, List.lookup (tokenKey v k) st.entries = some e →
    e.count = (vs.filter (fun t => t.value == v && t.type == k)).length ∧
    e.positions =
      (vs.filter (fun t => t.value == v && t.type == k)).map Token.position ∧
    vs.filter (fun t => t.value == v && t.type == k) ≠ []) ∧
  (∀ v k, vs.filter (fun t => t.value == v && t.type == k) ≠ [] →
    ∃ e, List.lookup (tokenKey v k) st.entries = some e) ∧
  st.total_tokens = vs.length ∧
  st.unique_tokens = st.entries.length ∧
  sumCounts st.entries = vs.length ∧
  (∀ k, st.token_types_count k = (vs.filter (fun t => t.type == k)).length) ∧
  (st.entries.map Prod.fst).Nodup

/-- Evaluation stability of one node: a second evaluation returns the same
node and value, and evaluation preserves the leaves. -/
def EvalStable (n : Node) : Prop :=
  ∀ n2 v, evaluate n = Except.ok (n2, v) →
    evaluate n2 = Except.ok (n2, v) ∧ leafTokens n2 = leafTokens n

/-! Specification-side definitions used to state the claims. -/

/-- The first invalid character of the scan, in left-to-right order, with its
position: the lexical error that `tokenize` reports. -/
def firstInvalid : List Char → Nat → Option LexicalError
  | [], _ => none
  | c :: rest, p =>
    if is_valid_character c then firstInvalid rest (p + 1) else some ⟨p, c⟩

/-- Whether some adjacent pair of tokens are both operators. -/
def hasConsecutiveOps : List Token → Bool
  | a :: b :: rest => (isOpType a.type && isOpType b.type) || hasConsecutiveOps (b :: rest)
  | _ => false

/-- Whether the first token is an operator. -/
def startsWithOp (ts : List Token) : Bool :=
  match ts.head? with
  | some t => isOpType t.type
  | none => false

/-- Whether the last token is an operator. -/
def endsWithOp (ts : List Token) : Bool :=
  match ts.getLast? with
  | some t => isOpType t.type
  | none => false

/-- The net parenthesis count of a token list: opening minus closing. -/
def openCount : List Token → Int
  | [] => 0
  | t :: rest =>
    (if t.type = TokenType.LPAREN then 1
     else if t.type = TokenType.RPAREN then -1 else 0) + openCount rest

/-! ## Theorems -/

/-- Claim C2: tokenizing `3+4*5` yields exactly the five tokens
`id 3, plus, id 4, multiply, id 5`, and parsing them is accepted with value
23; tokenizing and parsing `(1+2)*3` is accepted with value 9; parsing the
tokens of `a+b` is accepted and evaluates to 2 (placeholder value 1 per
letter identifier). -/
theorem claim_C2_worked_examples :
    tokenize "3+4*5" =
      Except.ok [⟨TokenType.ID, "3", 0⟩, ⟨TokenType.PLUS, "+", 1⟩,
        ⟨TokenType.ID, "4", 2⟩, ⟨TokenType.MULTIPLY, "*", 3⟩,
        ⟨TokenType.ID, "5", 4⟩] ∧
    parseValue (parseTokens [⟨TokenType.ID, "3", 0⟩, ⟨TokenType.PLUS, "+", 1⟩,
        ⟨TokenType.ID, "4", 2⟩, ⟨TokenType.MULTIPLY, "*", 3⟩,
        ⟨TokenType.ID, "5", 4⟩]) = some (some 23) ∧
    (tokenize "(1+2)*3").map (fun ts => parseValue (parseTokens ts)) =
      Except.ok (some (some 9)) ∧
    (tokenize "a+b").map (fun ts => parseValue (parseTokens ts)) =
      Except.ok (some (some 2)) :=
  ⟨rfl, rfl, rfl, rfl⟩

/-- Claim C1: the evaluation rules of parse trees.  An `E\x27` node with zero
children evaluates to 0 and one built from `+ T E\x27` to `T.value +
E\x27.value`; a `T\x27` node with zero children evaluates to 1 and one built
from `* F T\x27` to `F.value * T\x27.value`; an `E` node evaluates to
`T.value + E\x27.value`; a `T` node to `F.value * T\x27.value` unless
`T\x27.value` equals 1, in which case to `F.value` alone; an `F` node to its
inner `E` value (parenthesised form) or to its `id` child value; an `id`
leaf with all-digit text evaluates to that integer and any other `id` leaf
to the placeholder 1. -/
theorem claim_C1_evaluation_rules :
    (∀ v, evaluate (Node.node "E\x27" none v []) =
      Except.ok (Node.node "E\x27" none (some 0) [], some 0)) ∧
    (∀ v pt tN eN tN2 eN2 tv ev, evaluate tN = Except.ok (tN2, some tv) →
      evaluate eN = Except.ok (eN2, some ev) →
      evaluate (Node.node "E\x27" none v [Node.node "+" (some pt) none [], tN, eN]) =
        Except.ok (Node.node "E\x27" none (some (tv + ev))
          [Node.node "+" (some pt) none [], tN2, eN2], some (tv + ev))) ∧
    (∀ v, evaluate (Node.node "T\x27" none v []) =
      Except.ok (Node.node "T\x27" none (some 1) [], some 1)) ∧
    (∀ v mt fN tN fN2 tN2 fv tv, evaluate fN = Except.ok (fN2, some fv) →
      evaluate tN = Except.ok (tN2, some tv) →
      evaluate (Node.node "T\x27" none v [Node.node "*" (some mt) none [], fN, tN]) =
        Except.ok (Node.node "T\x27" none (some (fv * tv))
          [Node.node "*" (some mt) none [], fN2, tN2], some (fv * tv))) ∧
    (∀ v tN eN tN2 eN2 tv ev, evaluate tN = Except.ok (tN2, some tv) →
      evaluate eN = Except.ok (eN2, some ev) →
      evaluate (Node.node "E" none v [tN, eN]) =
        Except.ok (Node.node "E" none (some (tv + ev)) [tN2, eN2], some (tv + ev))) ∧
    (∀ v fN tN fN2 tN2 fv tv, evaluate fN = Except.ok (fN2, some fv) →
      evaluate tN = Except.ok (tN2, some tv) →
      evaluate (Node.node "T" none v [fN, tN]) =
        Except.ok (Node.node "T" none (some (if tv = 1 then fv else fv * tv))
          [fN2, tN2], some (if tv = 1 then fv else fv * tv))) ∧
    (∀ v lp rp eN eN2 ev, evaluate eN = Except.ok (eN2, some ev) →
      evaluate (Node.node "F" none v
          [Node.node "(" (some lp) none [], eN, Node.node ")" (some rp) none []]) =
        Except.ok (Node.node "F" none (some ev)
          [Node.node "(" (some lp) none [], eN2, Node.node ")" (some rp) none []],
          some ev)) ∧
    (∀ v idN idN2 w, evaluate idN = Except.ok (idN2, w) →
      evaluate (Node.node "F" none v [idN]) =
        Except.ok (Node.node "F" none w [idN2], w)) ∧
    (∀ v cs s pos, strIsDigit s = true →
      evaluate (Node.node "id" (some ⟨TokenType.ID, s, pos⟩) v cs) =
        Except.ok (Node.node "id" (some ⟨TokenType.ID, s, pos⟩)
          (some (strToInt s)) cs, some (strToInt s))) ∧
    (∀ v cs s pos, strIsDigit s = false →
      evaluate (Node.node "id" (some ⟨TokenType.ID, s, pos⟩) v cs) =
        Except.ok (Node.node "id" (some ⟨TokenType.ID, s, pos⟩) (some 1) cs,
          some 1)) := by
  refine ⟨fun v => rfl, ?_, fun v => rfl, ?_, ?_, ?_, ?_, ?_, ?_, ?_⟩
  · intro v pt tN eN tN2 eN2 tv ev h1 h2
    simp only [evaluate, evalPrimed, h1, h2, condAdd, String.reduceEq,
      Option.map_none', reduceIte, reduceCtorEq]
  · intro v mt fN tN fN2 tN2 fv tv h1 h2
    simp only [evaluate, evalPrimed, h1, h2, condMul, String.reduceEq,
      Option.map_none', reduceIte, reduceCtorEq]
  · intro v tN eN tN2 eN2 tv ev h1 h2
    simp only [evaluate, evalBinary, h1, h2, condAdd, String.reduceEq,
      Option.map_none', reduceIte, reduceCtorEq]
  · intro v fN tN fN2 tN2 fv tv h1 h2
    by_cases htv : tv = 1
    · subst htv
      simp only [evaluate, evalBinary, h1, h2, condMulT, String.reduceEq,
        Option.map_none', reduceIte, reduceCtorEq, ne_eq, not_true_eq_false,
        if_pos rfl]
    · simp only [evaluate, evalBinary, h1, h2, condMulT, String.reduceEq,
        Option.map_none', reduceIte, reduceCtorEq, ne_eq, htv,
        not_false_eq_true, if_true, if_neg htv]
  · intro v lp rp eN eN2 ev h1
    simp only [evaluate, evalF, h1, String.reduceEq, Option.map_none',
      reduceIte, reduceCtorEq]
  · intro v idN idN2 w h1
    simp only [evaluate, evalF, h1, String.reduceEq, Option.map_none',
      reduceIte, reduceCtorEq]
  · intro v cs s pos h
    simp only [evaluate, Option.map_some', Token.type, reduceIte, h]
  · intro v cs s pos h
    simp only [evaluate, Option.map_some', Token.type, reduceIte, h,
      Bool.false_eq_true]

/-- Witness for C1: every evaluation rule applied at a concrete node. -/
theorem claim_C1_evaluation_rules_witness :
    evaluate (Node.node "E\x27" none none []) =
      Except.ok (Node.node "E\x27" none (some 0) [], some 0) ∧
    evaluate (Node.node "E\x27" none none
        [Node.node "+" (some ⟨TokenType.PLUS, "+", 0⟩) none [],
         Node.node "E\x27" none none [], Node.node "E\x27" none none []]) =
      Except.ok (Node.node "E\x27" none (some 0)
        [Node.node "+" (some ⟨TokenType.PLUS, "+", 0⟩) none [],
         Node.node "E\x27" none (some 0) [], Node.node "E\x27" none (some 0) []],
        some 0) ∧
    evaluate (Node.node "T\x27" none none []) =
      Except.ok (Node.node "T\x27" none (some 1) [], some 1) ∧
    evaluate (Node.node "T\x27" none none
        [Node.node "*" (some ⟨TokenType.MULTIPLY, "*", 0⟩) none [],
         Node.node "T\x27" none none [], Node.node "T\x27" none none []]) =
      Except.ok (Node.node "T\x27" none (some 1)
        [Node.node "*" (some ⟨TokenType.MULTIPLY, "*", 0⟩) none [],
         Node.node "T\x27" none (some 1) [], Node.node "T\x27" none (some 1) []],
        some 1) ∧
    evaluate (Node.node "E" none none
        [Node.node "E\x27" none none [], Node.node "E\x27" none none []]) =
      Except.ok (Node.node "E" none (some 0)
        [Node.node "E\x27" none (some 0) [], Node.node "E\x27" none (some 0) []],
        some 0) ∧
    evaluate (Node.node "T" none none
        [Node.node "E\x27" none none [], Node.node "E\x27" none none []]) =
      Except.ok (Node.node "T" none (some 0)
        [Node.node "E\x27" none (some 0) [], Node.node "E\x27" none (some 0) []],
        some 0) ∧
    evaluate (Node.node "F" none none
        [Node.node "(" (some ⟨TokenType.LPAREN, "(", 0⟩) none [],
         Node.node "E\x27" none none [],
         Node.node ")" (some ⟨TokenType.RPAREN, ")", 2⟩) none []]) =
      Except.ok (Node.node "F" none (some 0)
        [Node.node "(" (some ⟨TokenType.LPAREN, "(", 0⟩) none [],
         Node.node "E\x27" none (some 0) [],
         Node.node ")" (some ⟨TokenType.RPAREN, ")", 2⟩) none []], some 0) ∧
    evaluate (Node.node "F" none none
        [Node.node "id" (some ⟨TokenType.ID, "3", 0⟩) none []]) =
      Except.ok (Node.node "F" none (some 3)
        [Node.node "id" (some ⟨TokenType.ID, "3", 0⟩) (some 3) []], some 3) ∧
    evaluate (Node.node "id" (some ⟨TokenType.ID, "3", 0⟩) none []) =
      Except.ok (Node.node "id" (some ⟨TokenType.ID, "3", 0⟩) (some 3) [],
        some 3) ∧
    evaluate (Node.node "id" (some ⟨TokenType.ID, "a", 0⟩) none []) =
      Except.ok (Node.node "id" (some ⟨TokenType.ID, "a", 0⟩) (some 1) [],
        some 1) :=
  have h := claim_C1_evaluation_rules
  ⟨h.1 none,
   h.2.1 none ⟨TokenType.PLUS, "+", 0⟩ _ _ _ _ 0 0 rfl rfl,
   h.2.2.1 none,
   h.2.2.2.1 none ⟨TokenType.MULTIPLY, "*", 0⟩ _ _ _ _ 1 1 rfl rfl,
   h.2.2.2.2.1 none _ _ _ _ 0 0 rfl rfl,
   h.2.2.2.2.2.1 none _ _ _ _ 0 0 rfl rfl,
   h.2.2.2.2.2.2.1 none ⟨TokenType.LPAREN, "(", 0⟩ ⟨TokenType.RPAREN, ")", 2⟩
     _ _ 0 rfl,
   h.2.2.2.2.2.2.2.1 none _ _ (some 3) rfl,
   h.2.2.2.2.2.2.2.2.1 none [] "3" 0 rfl,
   h.2.2.2.2.2.2.2.2.2 none [] "a" 0 rfl⟩

/-- A non-whitespace character yields an `INVALID` token exactly when it is
not a valid character of the grammar. -/
theorem charToken_invalid_iff (c : Char) (p : Nat) (hws : c.isWhitespace = false) :
    ((charToken c p).type = TokenType.INVALID) ↔ is_valid_character c = false := by
  unfold charToken is_valid_character
  split_ifs with h1 h2 h3 h4 h5
  · subst h1; simp [Token.type]
  · subst h2; simp [Token.type]
  · subst h3; simp [Token.type]
  · subst h4; simp [Token.type]
  · simp [Token.type, h5]
  · simp [Token.type, h1, h2, h3, h4, h5, hws]

/-- The first recorded lexical error of the scan is the first invalid
character in left-to-right order. -/
theorem scanChars_snd_head (l : List Char) :
    ∀ p, ((scanChars l p).2).head? = firstInvalid l p := by
  induction l with
  | nil => intro p; rfl
  | cons c rest ih =>
    intro p
    by_cases hws : c.isWhitespace
    · have hv : is_valid_character c = true := by simp [is_valid_character, hws]
      simp [scanChars, firstInvalid, hws, hv, ih (p + 1)]
    · have hbw : c.isWhitespace = false := by simpa using hws
      by_cases hv : is_valid_character c = true
      · have hni : ¬((charToken c p).type = TokenType.INVALID) := by
          rw [charToken_invalid_iff c p hbw]
          simp [hv]
        simp [scanChars, firstInvalid, hws, hv, hni, ih (p + 1)]
      · have hv2 : is_valid_character c = false := by simpa using hv
        have hi : (charToken c p).type = TokenType.INVALID := by
          rw [charToken_invalid_iff c p hbw]
          exact hv2
        simp [scanChars, firstInvalid, hws, hv2, hi]

/-- The tokens of the scan: one per non-whitespace character, in order, each
produced by `charToken` at its 0-based offset. -/
theorem scanChars_fst (l : List Char) :
    ∀ p, (scanChars l p).1 =
      ((List.enumFrom p l).filter (fun x => !x.2.isWhitespace)).map
        (fun x => charToken x.2 x.1) := by
  induction l with
  | nil => intro p; rfl
  | cons c rest ih =>
    intro p
    by_cases hws : c.isWhitespace
    · simp [scanChars, List.enumFrom_cons, hws, ih (p + 1)]
    · simp [scanChars, List.enumFrom_cons, hws, ih (p + 1)]

/-- If no lexical error is recorded, no scanned token has kind `INVALID`. -/
theorem scanChars_no_invalid (l : List Char) :
    ∀ p, (scanChars l p).2 = [] →
      ∀ t ∈ (scanChars l p).1, t.type ≠ TokenType.INVALID := by
  induction l with
  | nil => intro p _ t ht; simp [scanChars] at ht
  | cons c rest ih =>
    intro p herr t ht
    rw [scanChars] at herr ht
    by_cases hws : c.isWhitespace
    · simp only [hws, if_pos] at herr ht
      exact ih (p + 1) herr t ht
    · simp only [hws, Bool.false_eq_true, if_neg, not_false_eq_true] at herr ht
      by_cases hinv : (charToken c p).type = TokenType.INVALID
      · simp [hinv] at herr
      · simp only [hinv, if_neg, not_false_eq_true, if_false] at herr ht
        rcases List.mem_cons.mp ht with h | h
        · subst h; exact hinv
        · exact ih (p + 1) herr t h

/-- No invalid character exists exactly when every character is valid. -/
theorem firstInvalid_none_iff (l : List Char) :
    ∀ p, firstInvalid l p = none ↔ ∀ c ∈ l, is_valid_character c = true := by
  induction l with
  | nil => intro p; simp [firstInvalid]
  | cons c rest ih =>
    intro p
    by_cases hv : is_valid_character c = true <;>
      simp [firstInvalid, hv, ih (p + 1)]

/-- Positional characterisation of the first invalid character: it is invalid,
it occurs at the reported position, and everything before it is valid. -/
theorem firstInvalid_spec (l : List Char) :
    ∀ p0 e, firstInvalid l p0 = some e →
      ∃ i, ∃ h : i < l.length, e.position = p0 + i ∧ l.get ⟨i, h⟩ = e.character ∧
        is_valid_character e.character = false ∧
        ∀ j, ∀ hj : j < i, is_valid_character (l.get ⟨j, hj.trans h⟩) = true := by
  induction l with
  | nil => intro p0 e h; simp [firstInvalid] at h
  | cons c rest ih =>
    intro p0 e h
    rw [firstInvalid] at h
    by_cases hv : is_valid_character c = true
    · rw [if_pos hv] at h
      obtain ⟨i, hi, hpos, hchar, hinv, hprev⟩ := ih (p0 + 1) e h
      refine ⟨i + 1, by simpa using Nat.succ_lt_succ hi, by omega, by simpa using hchar,
        hinv, ?_⟩
      intro j hj
      match j with
      | 0 => simpa using hv
      | Nat.succ j =>
        simpa using hprev j (by omega)
    · rw [if_neg hv] at h
      cases h
      exact ⟨0, by simp, by simp, rfl, by simpa using hv,
        fun j hj => absurd hj (by omega)⟩

/-- Claim C3: `tokenize` fails with `EmptyInput` exactly when the trimmed
input is empty; it fails with a `LexicalError` exactly when the trimmed input
is non-empty and contains an invalid character, and the error reported is the
first invalid character in left-to-right scan order; otherwise it succeeds,
and a successful token sequence never contains an `INVALID` token. -/
theorem claim_C3_tokenize_error_characterisation (s : List Char) :
    (tokenizeChars s = Except.error TokenizeError.emptyInput ↔ pyStrip s = []) ∧
    (∀ e, tokenizeChars s = Except.error (TokenizeError.lexical e) ↔
      (pyStrip s ≠ [] ∧ firstInvalid (pyStrip s) 0 = some e)) ∧
    (firstInvalid (pyStrip s) 0 = none ↔
      ∀ c ∈ pyStrip s, is_valid_character c = true) ∧
    (∀ p c, firstInvalid (pyStrip s) 0 = some ⟨p, c⟩ →
      ∃ h : p < (pyStrip s).length, (pyStrip s).get ⟨p, h⟩ = c ∧
        is_valid_character c = false ∧
        ∀ j, ∀ hj : j < p, is_valid_character ((pyStrip s).get ⟨j, hj.trans h⟩) = true) ∧
    ((∃ toks, tokenizeChars s = Except.ok toks) ↔
      (pyStrip s ≠ [] ∧ ∀ c ∈ pyStrip s, is_valid_character c = true)) ∧
    (∀ toks, tokenizeChars s = Except.ok toks →
      ∀ t ∈ toks, t.type ≠ TokenType.INVALID) := by
  have hhead := scanChars_snd_head (pyStrip s) 0
  have hnone := firstInvalid_none_iff (pyStrip s) 0
  refine ⟨?_, ?_, hnone, ?_, ?_, ?_⟩
  · unfold tokenizeChars
    by_cases h : (pyStrip s).isEmpty
    · simp only [h, if_pos]
      simp [List.isEmpty_iff.mp h]
    · simp only [h, Bool.false_eq_true, if_neg, not_false_eq_true]
      constructor
      · intro hc
        cases he : (scanChars (pyStrip s) 0).2 with
        | nil => rw [he] at hc; exact absurd hc (by simp)
        | cons e es => rw [he] at hc; exact absurd hc (by simp)
      · intro hc
        exact absurd hc (by simpa [List.isEmpty_iff] using h)
  · intro e
    unfold tokenizeChars
    by_cases h : (pyStrip s).isEmpty
    · simp only [h, if_pos]
      have : pyStrip s = [] := List.isEmpty_iff.mp h
      simp [this]
    · simp only [h, Bool.false_eq_true, if_neg, not_false_eq_true]
      have hne : pyStrip s ≠ [] := by simpa [List.isEmpty_iff] using h
      cases he : (scanChars (pyStrip s) 0).2 with
      | nil =>
        rw [he] at hhead
        simp only [List.head?_nil] at hhead
        simp [hne, ← hhead]
      | cons e2 es =>
        rw [he] at hhead
        simp only [List.head?_cons] at hhead
        simp only [hne, ne_eq, not_false_eq_true, true_and, ← hhead]
        constructor
        · intro hc
          injection hc with hc
          injection hc with hc
          exact congrArg some hc
        · intro hc
          injection hc with hc
          exact congrArg (fun x => Except.error (TokenizeError.lexical x)) hc
  · intro p c h
    obtain ⟨i, hi, hpos, hchar, hinv, hprev⟩ := firstInvalid_spec (pyStrip s) 0 ⟨p, c⟩ h
    simp only [LexicalError.mk.injEq] at hpos hchar hinv
    have hpi : p = i := by omega
    subst hpi
    exact ⟨hi, hchar, hinv, hprev⟩
  · unfold tokenizeChars
    by_cases h : (pyStrip s).isEmpty
    · simp only [h, if_pos]
      have : pyStrip s = [] := List.isEmpty_iff.mp h
      simp [this]
    · simp only [h, Bool.false_eq_true, if_neg, not_false_eq_true]
      have hne : pyStrip s ≠ [] := by simpa [List.isEmpty_iff] using h
      cases he : (scanChars (pyStrip s) 0).2 with
      | nil =>
        rw [he] at hhead
        simp only [List.head?_nil] at hhead
        simp [hne, ← hnone, ← hhead]
      | cons e2 es =>
        rw [he] at hhead
        simp only [List.head?_cons] at hhead
        simp only [hne, ne_eq, not_false_eq_true, true_and, ← hnone, ← hhead]
        simp
  · intro toks htoks t ht
    unfold tokenizeChars at htoks
    by_cases h : (pyStrip s).isEmpty
    · simp [h] at htoks
    · simp only [h, Bool.false_eq_true, if_neg, not_false_eq_true] at htoks
      cases he : (scanChars (pyStrip s) 0).2 with
      | nil =>
        rw [he] at htoks
        simp only at htoks
        injection htoks with htoks
        subst htoks
        exact scanChars_no_invalid (pyStrip s) 0 he t ht
      | cons e2 es =>
        rw [he] at htoks
        simp at htoks

/-- Witness for C3: the characterisation applied to the input `3 % 4`. -/
theorem claim_C3_witness :
    tokenizeChars ("3 % 4").data = Except.error (TokenizeError.lexical ⟨2, '%'⟩) ∧
    ("3 % 4").data ≠ [] ∧ firstInvalid (pyStrip ("3 % 4").data) 0 = some ⟨2, '%'⟩ ∧
    (∀ toks, tokenizeChars ("3").data = Except.ok toks →
      ∀ t ∈ toks, t.type ≠ TokenType.INVALID) :=
  ⟨((claim_C3_tokenize_error_characterisation ("3 % 4").data).2.1 ⟨2, '%'⟩).mpr
      ⟨by decide, by decide⟩,
   by decide, by decide,
   (claim_C3_tokenize_error_characterisation ("3").data).2.2.2.2.2⟩

/-- Claim C5: a successful `tokenize` returns exactly one token per
non-whitespace character of the trimmed input, in left-to-right order, each
being the single-character token produced by the character-to-token mapping
at its 0-based offset. -/
theorem claim_C5_token_shape (s : List Char) (toks : List Token)
    (h : tokenizeChars s = Except.ok toks) :
    toks = ((List.enumFrom 0 (pyStrip s)).filter (fun x => !x.2.isWhitespace)).map
      (fun x => charToken x.2 x.1) := by
  unfold tokenizeChars at h
  by_cases he : (pyStrip s).isEmpty
  · simp [he] at h
  · simp only [he, Bool.false_eq_true, if_neg, not_false_eq_true] at h
    cases herr : (scanChars (pyStrip s) 0).2 with
    | nil =>
      rw [herr] at h
      simp only at h
      injection h with h
      subst h
      exact scanChars_fst (pyStrip s) 0
    | cons e2 es =>
      rw [herr] at h
      simp at h

/-- Witness for C5: the token shape applied to the input ` 3+ 4`. -/
theorem claim_C5_token_shape_witness :
    [⟨TokenType.ID, "3", 0⟩, ⟨TokenType.PLUS, "+", 1⟩, ⟨TokenType.ID, "4", 3⟩] =
      ((List.enumFrom 0 (pyStrip (" 3+ 4").data)).filter
        (fun x => !x.2.isWhitespace)).map (fun x => charToken x.2 x.1) :=
  claim_C5_token_shape (" 3+ 4").data
    [⟨TokenType.ID, "3", 0⟩, ⟨TokenType.PLUS, "+", 1⟩, ⟨TokenType.ID, "4", 3⟩] rfl

/-- The consecutive-operator scan finds nothing exactly when no adjacent pair
of tokens are both operators. -/
theorem findConsecutive_none_iff :
    ∀ ts, findConsecutive ts = none ↔ hasConsecutiveOps ts = false
  | [] => by simp [findConsecutive, hasConsecutiveOps]
  | [a] => by simp [findConsecutive, hasConsecutiveOps]
  | a :: b :: rest => by
    by_cases h : (isOpType a.type && isOpType b.type) = true
    · simp [findConsecutive, hasConsecutiveOps, h]
    · simp only [Bool.not_eq_true] at h
      simp [findConsecutive, hasConsecutiveOps, h,
        findConsecutive_none_iff (b :: rest)]

/-- A successful paren scan returns the initial counter plus the net count,
and keeps a non-negative counter non-negative. -/
theorem checkParens_ok :
    ∀ ts (n m : Int), checkParens ts n = Except.ok m →
      m = n + openCount ts ∧ (0 ≤ n → 0 ≤ m)
  | [], n, m => by
    intro h
    injection h with h
    subst h
    simp [openCount]
  | t :: rest, n, m => by
    intro h
    rw [checkParens] at h
    by_cases hl : t.type = TokenType.LPAREN
    · rw [if_pos hl] at h
      obtain ⟨h1, h2⟩ := checkParens_ok rest (n + 1) m h
      refine ⟨by simp [openCount, hl]; omega, fun hn => h2 (by omega)⟩
    · rw [if_neg hl] at h
      by_cases hr : t.type = TokenType.RPAREN
      · rw [if_pos hr] at h
        by_cases hneg : n - 1 < 0
        · rw [if_pos hneg] at h
          exact absurd h (by simp)
        · rw [if_neg hneg] at h
          obtain ⟨h1, h2⟩ := checkParens_ok rest (n - 1) m h
          refine ⟨by simp [openCount, hl, hr]; omega, fun _ => h2 (by omega)⟩
      · rw [if_neg hr] at h
        obtain ⟨h1, h2⟩ := checkParens_ok rest n m h
        exact ⟨by simp [openCount, hl, hr]; omega, h2⟩

/-- If every prefix keeps the counter non-negative, the paren scan succeeds
with the final counter. -/
theorem checkParens_ok_of_nonneg :
    ∀ ts (n : Int), (∀ i, i < ts.length → 0 ≤ n + openCount (ts.take (i + 1))) →
      checkParens ts n = Except.ok (n + openCount ts)
  | [], n => by
    intro _
    simp [checkParens, openCount]
  | t :: rest, n => by
    intro hpre
    rw [checkParens]
    by_cases hl : t.type = TokenType.LPAREN
    · rw [if_pos hl]
      have := checkParens_ok_of_nonneg rest (n + 1) (fun i hi => by
        have := hpre (i + 1) (by simpa using Nat.succ_lt_succ hi)
        simp only [List.take_succ_cons, openCount, if_pos hl] at this
        omega)
      rw [this]
      have : n + 1 + openCount rest = n + openCount (t :: rest) := by
        simp [openCount, hl]; omega
      rw [this]
    · rw [if_neg hl]
      by_cases hr : t.type = TokenType.RPAREN
      · rw [if_pos hr]
        have h0 := hpre 0 (by simp)
        simp only [List.take_succ_cons, List.take_zero, openCount, if_neg hl,
          if_pos hr] at h0
        have hneg : ¬(n - 1 < 0) := by omega
        rw [if_neg hneg]
        have := checkParens_ok_of_nonneg rest (n - 1) (fun i hi => by
          have := hpre (i + 1) (by simpa using Nat.succ_lt_succ hi)
          simp only [List.take_succ_cons, openCount, if_neg hl, if_pos hr] at this
          omega)
        rw [this]
        have : n - 1 + openCount rest = n + openCount (t :: rest) := by
          simp [openCount, hl, hr]; omega
        rw [this]
      · rw [if_neg hr]
        have := checkParens_ok_of_nonneg rest n (fun i hi => by
          have := hpre (i + 1) (by simpa using Nat.succ_lt_succ hi)
          simp only [List.take_succ_cons, openCount, if_neg hl, if_neg hr] at this
          omega)
        rw [this]
        have : n + openCount rest = n + openCount (t :: rest) := by
          simp [openCount, hl, hr]
        rw [this]

/-- If the counter first goes negative at index `i`, the paren scan fails
with the unmatched-closing error at that token. -/
theorem checkParens_first_neg :
    ∀ ts (n : Int) (i : Nat) (hi : i < ts.length), 0 ≤ n →
      n + openCount (ts.take (i + 1)) < 0 →
      (∀ j, j < i → 0 ≤ n + openCount (ts.take (j + 1))) →
      checkParens ts n = Except.error (ParseError.semanticError
        "Unmatched closing parenthesis" (some (ts.get ⟨i, hi⟩).position)
        (some (ts.get ⟨i, hi⟩)) "parentheses balance")
  | [], n, i, hi => by simp at hi
  | t :: rest, n, i, hi => by
    intro hn hneg hpre
    rw [checkParens]
    match i with
    | 0 =>
      simp only [List.take_succ_cons, List.take_zero, openCount] at hneg
      by_cases hl : t.type = TokenType.LPAREN
      · rw [if_pos hl] at hneg
        omega
      · by_cases hr : t.type = TokenType.RPAREN
        · rw [if_neg hl, if_pos hr] at hneg
          rw [if_neg hl, if_pos hr, if_pos (by omega)]
          rfl
        · rw [if_neg hl, if_neg hr] at hneg
          omega
    | i + 1 =>
      have h0 := hpre 0 (by omega)
      simp only [List.take_succ_cons, List.take_zero, openCount] at h0 hneg
      have hpre2 : ∀ j, j < i →
          0 ≤ (n + openCount (List.take 1 (t :: rest))) + openCount (rest.take (j + 1)) := by
        intro j hj
        have := hpre (j + 1) (by omega)
        simp only [List.take_succ_cons, List.take_zero, openCount] at this ⊢
        omega
      by_cases hl : t.type = TokenType.LPAREN
      · rw [if_pos hl]
        rw [checkParens_first_neg rest (n + 1) i (by simpa using hi) (by omega)
          (by rw [if_pos hl] at hneg; omega)
          (fun j hj => by
            have := hpre2 j hj
            simp only [List.take_succ_cons, List.take_zero, openCount, if_pos hl] at this
            omega)]
        rfl
      · rw [if_neg hl]
        by_cases hr : t.type = TokenType.RPAREN
        · rw [if_pos hr]
          rw [if_neg hl, if_pos hr] at h0 hneg
          rw [if_neg (by omega : ¬(n - 1 < 0))]
          rw [checkParens_first_neg rest (n - 1) i (by simpa using hi) (by omega)
            (by omega)
            (fun j hj => by
              have := hpre2 j hj
              simp only [List.take_succ_cons, List.take_zero, openCount, if_neg hl,
                if_pos hr] at this
              omega)]
          rfl
        · rw [if_neg hr]
          rw [if_neg hl, if_neg hr] at h0 hneg
          rw [checkParens_first_neg rest n i (by simpa using hi) (by omega) (by omega)
            (fun j hj => by
              have := hpre2 j hj
              simp only [List.take_succ_cons, List.take_zero, openCount, if_neg hl,
                if_neg hr] at this
              omega)]
          rfl

/-- A passed semantic analysis implies: the last token is not an operator and
the parentheses are exactly balanced. -/
theorem semanticAnalysis_ok_facts (ts : List Token)
    (h : performSemanticAnalysis ts = Except.ok ()) :
    endsWithOp ts = false ∧ openCount ts = 0 := by
  cases ts with
  | nil => exact ⟨rfl, rfl⟩
  | cons t0 rest =>
    rw [performSemanticAnalysis] at h
    cases hfc : findConsecutive (t0 :: rest) with
    | some ab => rw [hfc] at h; exact absurd h (by cases ab; simp)
    | none =>
      rw [hfc] at h
      by_cases hstart : isOpType t0.type = true
      · rw [if_pos hstart] at h
        exact absurd h (by simp)
      · rw [if_neg hstart] at h
        simp only at h
        by_cases hend : isOpType ((t0 :: rest).getLast (by simp)).type = true
        · rw [if_pos hend] at h
          exact absurd h (by simp)
        · rw [if_neg hend] at h
          have hlast : (t0 :: rest).getLast? =
              some ((t0 :: rest).getLast (by simp)) :=
            (List.getLast_eq_iff_getLast?_eq_some (by simp)).mp rfl
          have hendw : endsWithOp (t0 :: rest) = false := by
            rw [endsWithOp, hlast]
            simpa using hend
          cases hcp : checkParens (t0 :: rest) 0 with
          | error e => rw [hcp] at h; exact absurd h (by simp)
          | ok n =>
            rw [hcp] at h
            by_cases hpos : n > 0
            · exact absurd h (by simp [hpos])
            · obtain ⟨h1, h2⟩ := checkParens_ok (t0 :: rest) 0 n hcp
              have := h2 (by omega)
              exact ⟨hendw, by omega⟩

/-- Claim C4: the semantic pre-checks run in a fixed order and short-circuit
on the first violated rule: empty sequence, then consecutive operators, then
operator at start, then operator at end, then parenthesis balance; the
paren-balance pass reports an unmatched closing parenthesis at the first
token where the running counter would go negative, and a positive final
counter reports `N unmatched opening parenthesis(es)`; for the single token
`)` only the paren-balance check fires (RPAREN is not an operator kind), and
when a sequence both starts with an operator and has consecutive operators,
the consecutive-operators error is reported. -/
theorem claim_C4_semantic_check_order (ts : List Token) :
    (parseTokens [] = Except.error (ParseError.unexpectedEndOfInput "expression")) ∧
    (hasConsecutiveOps ts = true →
      ∃ m p t, performSemanticAnalysis ts =
        Except.error (ParseError.semanticError m p t "operator sequence")) ∧
    (hasConsecutiveOps ts = false → startsWithOp ts = true →
      ∃ m p t, performSemanticAnalysis ts =
        Except.error (ParseError.semanticError m p t "expression start")) ∧
    (hasConsecutiveOps ts = false → startsWithOp ts = false → endsWithOp ts = true →
      ∃ m p t, performSemanticAnalysis ts =
        Except.error (ParseError.semanticError m p t "expression end")) ∧
    (∀ i, ∀ hi : i < ts.length,
      hasConsecutiveOps ts = false → startsWithOp ts = false → endsWithOp ts = false →
      openCount (ts.take (i + 1)) < 0 →
      (∀ j, j < i → 0 ≤ openCount (ts.take (j + 1))) →
      performSemanticAnalysis ts = Except.error (ParseError.semanticError
        "Unmatched closing parenthesis" (some (ts.get ⟨i, hi⟩).position)
        (some (ts.get ⟨i, hi⟩)) "parentheses balance")) ∧
    (hasConsecutiveOps ts = false → startsWithOp ts = false → endsWithOp ts = false →
      (∀ j, j < ts.length → 0 ≤ openCount (ts.take (j + 1))) → 0 < openCount ts →
      performSemanticAnalysis ts = Except.error (ParseError.semanticError
        (toString (openCount ts) ++ " unmatched opening parenthesis(es)") none none
        "parentheses balance")) ∧
    (hasConsecutiveOps ts = false → startsWithOp ts = false → endsWithOp ts = false →
      (∀ j, j < ts.length → 0 ≤ openCount (ts.take (j + 1))) → openCount ts ≤ 0 →
      performSemanticAnalysis ts = Except.ok ()) ∧
    (performSemanticAnalysis [⟨TokenType.RPAREN, ")", 0⟩] = Except.error
      (ParseError.semanticError "Unmatched closing parenthesis" (some 0)
        (some ⟨TokenType.RPAREN, ")", 0⟩) "parentheses balance") ∧
      isOpType TokenType.RPAREN = false) ∧
    (performSemanticAnalysis
        [⟨TokenType.PLUS, "+", 0⟩, ⟨TokenType.MULTIPLY, "*", 1⟩,
          ⟨TokenType.ID, "3", 2⟩] =
      Except.error (ParseError.semanticError
        "Consecutive operators \x27+\x27 and \x27*\x27 are not allowed" (some 0)
        (some ⟨TokenType.PLUS, "+", 0⟩) "operator sequence")) := by
  have hgl : ∀ (t0 : Token) (rest : List Token),
      (t0 :: rest).getLast? = some ((t0 :: rest).getLast (by simp)) :=
    fun t0 rest => (List.getLast_eq_iff_getLast?_eq_some (by simp)).mp rfl
  have hendlast : ∀ (t0 : Token) (rest : List Token), endsWithOp (t0 :: rest) = false →
      isOpType ((t0 :: rest).getLast (by simp)).type = false := by
    intro t0 rest hend
    rw [endsWithOp, hgl t0 rest] at hend
    simpa using hend
  refine ⟨rfl, ?_, ?_, ?_, ?_, ?_, ?_, ⟨rfl, rfl⟩, rfl⟩
  · intro hcon
    cases ts with
    | nil => simp [hasConsecutiveOps] at hcon
    | cons t0 rest =>
      cases hfc : findConsecutive (t0 :: rest) with
      | none =>
        rw [findConsecutive_none_iff] at hfc
        rw [hfc] at hcon
        exact absurd hcon (by simp)
      | some ab =>
        obtain ⟨a, b⟩ := ab
        refine ⟨"Consecutive operators \x27" ++ a.value ++ "\x27 and \x27" ++
          b.value ++ "\x27 are not allowed", some a.position, some a, ?_⟩
        rw [performSemanticAnalysis, hfc]
  · intro hcon hstart
    cases ts with
    | nil => simp [startsWithOp] at hstart
    | cons t0 rest =>
      have hfc : findConsecutive (t0 :: rest) = none :=
        (findConsecutive_none_iff _).mpr hcon
      have hop : isOpType t0.type = true := by simpa [startsWithOp] using hstart
      refine ⟨"Expression cannot start with operator \x27" ++ t0.value ++ "\x27",
        some t0.position, some t0, ?_⟩
      rw [performSemanticAnalysis, hfc]
      simp only [hop, if_true]
  · intro hcon hstart hend
    cases ts with
    | nil => simp [endsWithOp] at hend
    | cons t0 rest =>
      have hfc : findConsecutive (t0 :: rest) = none :=
        (findConsecutive_none_iff _).mpr hcon
      have hops : isOpType t0.type = false := by simpa [startsWithOp] using hstart
      have hople : isOpType ((t0 :: rest).getLast (by simp)).type = true := by
        rw [endsWithOp, hgl t0 rest] at hend
        simpa using hend
      refine ⟨"Expression cannot end with operator \x27" ++
          ((t0 :: rest).getLast (by simp)).value ++ "\x27",
        some ((t0 :: rest).getLast (by simp)).position,
        some ((t0 :: rest).getLast (by simp)), ?_⟩
      rw [performSemanticAnalysis, hfc]
      simp only [hops, Bool.false_eq_true, if_false, hople, if_true]
  · intro i hi hcon hstart hend hneg hpre
    cases ts with
    | nil => simp at hi
    | cons t0 rest =>
      have hfc : findConsecutive (t0 :: rest) = none :=
        (findConsecutive_none_iff _).mpr hcon
      have hops : isOpType t0.type = false := by simpa [startsWithOp] using hstart
      have hple : isOpType ((t0 :: rest).getLast (by simp)).type = false :=
        hendlast t0 rest hend
      rw [performSemanticAnalysis, hfc]
      simp only [hops, Bool.false_eq_true, if_false, hple]
      rw [checkParens_first_neg (t0 :: rest) 0 i hi (le_refl 0) (by omega)
        (fun j hj => by have := hpre j hj; omega)]
  · intro hcon hstart hend hpre hpos
    cases ts with
    | nil => simp [openCount] at hpos
    | cons t0 rest =>
      have hfc : findConsecutive (t0 :: rest) = none :=
        (findConsecutive_none_iff _).mpr hcon
      have hops : isOpType t0.type = false := by simpa [startsWithOp] using hstart
      have hple : isOpType ((t0 :: rest).getLast (by simp)).type = false :=
        hendlast t0 rest hend
      rw [performSemanticAnalysis, hfc]
      simp only [hops, Bool.false_eq_true, if_false, hple]
      have hok := checkParens_ok_of_nonneg (t0 :: rest) 0
        (fun j hj => by have := hpre j hj; omega)
      rw [zero_add] at hok
      rw [hok]
      simp only [hpos, if_pos]
  · intro hcon hstart hend hpre hle
    cases ts with
    | nil => rfl
    | cons t0 rest =>
      have hfc : findConsecutive (t0 :: rest) = none :=
        (findConsecutive_none_iff _).mpr hcon
      have hops : isOpType t0.type = false := by simpa [startsWithOp] using hstart
      have hple : isOpType ((t0 :: rest).getLast (by simp)).type = false :=
        hendlast t0 rest hend
      rw [performSemanticAnalysis, hfc]
      simp only [hops, Bool.false_eq_true, if_false, hple]
      have hok := checkParens_ok_of_nonneg (t0 :: rest) 0
        (fun j hj => by have := hpre j hj; omega)
      rw [zero_add] at hok
      rw [hok]
      have hng : ¬(openCount (t0 :: rest) > 0) := by omega
      simp [hng]

/-- Witness for C4: each pre-check conjunct applied at a concrete token
sequence. -/
theorem claim_C4_semantic_check_order_witness :
    (∃ m p t, performSemanticAnalysis
        [⟨TokenType.PLUS, "+", 0⟩, ⟨TokenType.PLUS, "+", 1⟩] =
      Except.error (ParseError.semanticError m p t "operator sequence")) ∧
    (∃ m p t, performSemanticAnalysis
        [⟨TokenType.PLUS, "+", 0⟩, ⟨TokenType.ID, "3", 1⟩] =
      Except.error (ParseError.semanticError m p t "expression start")) ∧
    (∃ m p t, performSemanticAnalysis
        [⟨TokenType.ID, "3", 0⟩, ⟨TokenType.PLUS, "+", 1⟩] =
      Except.error (ParseError.semanticError m p t "expression end")) ∧
    performSemanticAnalysis [⟨TokenType.RPAREN, ")", 0⟩] =
      Except.error (ParseError.semanticError "Unmatched closing parenthesis"
        (some 0) (some ⟨TokenType.RPAREN, ")", 0⟩) "parentheses balance") ∧
    performSemanticAnalysis [⟨TokenType.LPAREN, "(", 0⟩] =
      Except.error (ParseError.semanticError
        (toString (openCount [(⟨TokenType.LPAREN, "(", 0⟩ : Token)]) ++
          " unmatched opening parenthesis(es)") none none "parentheses balance") ∧
    performSemanticAnalysis [⟨TokenType.ID, "3", 0⟩] = Except.ok () := by
  refine ⟨(claim_C4_semantic_check_order _).2.1 (by decide),
    (claim_C4_semantic_check_order _).2.2.1 (by decide) (by decide),
    (claim_C4_semantic_check_order _).2.2.2.1 (by decide) (by decide) (by decide),
    ?_, ?_, ?_⟩
  · have h := (claim_C4_semantic_check_order
      [(⟨TokenType.RPAREN, ")", 0⟩ : Token)]).2.2.2.2.1 0 (by decide)
      (by decide) (by decide) (by decide) (by decide)
      (fun j hj => absurd hj (by omega))
    exact h
  · exact (claim_C4_semantic_check_order _).2.2.2.2.2.1 (by decide) (by decide)
      (by decide)
      (fun j hj => by
        match j, hj with
        | 0, _ => decide)
      (by decide)
  · exact (claim_C4_semantic_check_order _).2.2.2.2.2.2.1 (by decide) (by decide)
      (by decide)
      (fun j hj => by
        match j, hj with
        | 0, _ => decide)
      (by decide)

/-- Inversion of `pstep` on success. -/
theorem pstep_ok (x : Except ParseError (Node × List Token))
    (f : Node → List Token → Except ParseError (Node × List Token))
    (n : Node) (r : List Token) :
    pstep x f = Except.ok (n, r) ↔
      ∃ n1 r1, x = Except.ok (n1, r1) ∧ f n1 r1 = Except.ok (n, r) := by
  cases x with
  | error e => simp [pstep]
  | ok p =>
    obtain ⟨n1, r1⟩ := p
    constructor
    · intro h
      exact ⟨n1, r1, rfl, h⟩
    · rintro ⟨a, b, hab, h⟩
      injection hab with hab
      rw [Prod.mk.injEq] at hab
      obtain ⟨h1, h2⟩ := hab
      subst h1
      subst h2
      exact h

/-- Inversion of `pstep` on failure. -/
theorem pstep_error (x : Except ParseError (Node × List Token))
    (f : Node → List Token → Except ParseError (Node × List Token))
    (e : ParseError) :
    pstep x f = Except.error e ↔
      (x = Except.error e ∨
        ∃ n1 r1, x = Except.ok (n1, r1) ∧ f n1 r1 = Except.error e) := by
  cases x with
  | error e2 => simp [pstep]
  | ok p =>
    obtain ⟨n1, r1⟩ := p
    constructor
    · intro h
      exact Or.inr ⟨n1, r1, rfl, h⟩
    · rintro (h | ⟨a, b, hab, h⟩)
      · exact absurd h (by simp)
      · injection hab with hab
        rw [Prod.mk.injEq] at hab
        obtain ⟨h1, h2⟩ := hab
        subst h1
        subst h2
        exact h

/-- Each successful routine consumes tokens: `F`, `T`, `E` consume at least
one token, `E\x27` and `T\x27` consume zero or more. -/
theorem parse_consume (fuel : Nat) :
    ∀ ts : List Token,
      (∀ n r, parseF fuel ts = Except.ok (n, r) → r.length < ts.length) ∧
      (∀ n r, parseT fuel ts = Except.ok (n, r) → r.length < ts.length) ∧
      (∀ n r, parseE fuel ts = Except.ok (n, r) → r.length < ts.length) ∧
      (∀ n r, parseEPrime fuel ts = Except.ok (n, r) → r.length ≤ ts.length) ∧
      (∀ n r, parseTPrime fuel ts = Except.ok (n, r) → r.length ≤ ts.length) := by
  induction fuel with
  | zero =>
    intro ts
    refine ⟨?_, ?_, ?_, ?_, ?_⟩ <;> intro n r h <;>
      simp [parseF, parseT, parseE, parseEPrime, parseTPrime] at h
  | succ fuel ih =>
    intro ts
    refine ⟨?_, ?_, ?_, ?_, ?_⟩
    · intro n r h
      cases ts with
      | nil => simp [parseF] at h
      | cons t rest =>
        rw [parseF] at h
        by_cases hl : t.type = TokenType.LPAREN
        · rw [if_pos hl, pstep_ok] at h
          obtain ⟨eN, ts1, he, h⟩ := h
          have hlen := (ih rest).2.2.1 eN ts1 he
          cases ts1 with
          | nil => simp [consumeRParenF] at h
          | cons rt rest2 =>
            rw [consumeRParenF] at h
            by_cases hr : rt.type = TokenType.RPAREN
            · rw [if_pos hr] at h
              injection h with h
              rw [Prod.mk.injEq] at h
              obtain ⟨-, h2⟩ := h
              subst h2
              simp only [List.length_cons] at hlen ⊢
              omega
            · rw [if_neg hr] at h
              simp at h
        · rw [if_neg hl] at h
          by_cases hid : t.type = TokenType.ID
          · rw [if_pos hid] at h
            injection h with h
            rw [Prod.mk.injEq] at h
            obtain ⟨-, h2⟩ := h
            subst h2
            simp
          · rw [if_neg hid] at h
            simp at h
    · intro n r h
      rw [parseT, pstep_ok] at h
      obtain ⟨fN, ts1, hf, h⟩ := h
      rw [pstep_ok] at h
      obtain ⟨tN, ts2, ht, h⟩ := h
      injection h with h
      rw [Prod.mk.injEq] at h
      obtain ⟨-, hr2⟩ := h
      subst hr2
      have h1 := (ih ts).1 fN ts1 hf
      have h2 := (ih ts1).2.2.2.2 tN ts2 ht
      omega
    · intro n r h
      rw [parseE, pstep_ok] at h
      obtain ⟨tN, ts1, ht, h⟩ := h
      rw [pstep_ok] at h
      obtain ⟨eN, ts2, he, h⟩ := h
      injection h with h
      rw [Prod.mk.injEq] at h
      obtain ⟨-, hr2⟩ := h
      subst hr2
      have h1 := (ih ts).2.1 tN ts1 ht
      have h2 := (ih ts1).2.2.2.1 eN ts2 he
      omega
    · intro n r h
      cases ts with
      | nil =>
        rw [parseEPrime] at h
        injection h with h
        rw [Prod.mk.injEq] at h
        obtain ⟨-, hr2⟩ := h
        subst hr2
        simp
      | cons t rest =>
        rw [parseEPrime] at h
        by_cases hp : t.type = TokenType.PLUS
        · rw [if_pos hp, pstep_ok] at h
          obtain ⟨tN, ts1, ht, h⟩ := h
          rw [pstep_ok] at h
          obtain ⟨eN, ts2, he, h⟩ := h
          injection h with h
          rw [Prod.mk.injEq] at h
          obtain ⟨-, hr2⟩ := h
          subst hr2
          have h1 := (ih rest).2.1 tN ts1 ht
          have h2 := (ih ts1).2.2.2.1 eN ts2 he
          simp only [List.length_cons]
          omega
        · rw [if_neg hp] at h
          injection h with h
          rw [Prod.mk.injEq] at h
          obtain ⟨-, hr2⟩ := h
          subst hr2
          simp
    · intro n r h
      cases ts with
      | nil =>
        rw [parseTPrime] at h
        injection h with h
        rw [Prod.mk.injEq] at h
        obtain ⟨-, hr2⟩ := h
        subst hr2
        simp
      | cons t rest =>
        rw [parseTPrime] at h
        by_cases hp : t.type = TokenType.MULTIPLY
        · rw [if_pos hp, pstep_ok] at h
          obtain ⟨fN, ts1, hf, h⟩ := h
          rw [pstep_ok] at h
          obtain ⟨tN, ts2, ht, h⟩ := h
          injection h with h
          rw [Prod.mk.injEq] at h
          obtain ⟨-, hr2⟩ := h
          subst hr2
          have h1 := (ih rest).1 fN ts1 hf
          have h2 := (ih ts1).2.2.2.2 tN ts2 ht
          simp only [List.length_cons]
          omega
        · rw [if_neg hp] at h
          injection h with h
          rw [Prod.mk.injEq] at h
          obtain ⟨-, hr2⟩ := h
          subst hr2
          simp

/-- Sufficient fuel: with fuel exceeding three times the remaining tokens
(plus the routine-dependent offset) no routine runs out of fuel. -/
theorem parse_fuel (fuel : Nat) :
    ∀ ts : List Token,
      (3 * ts.length + 1 ≤ fuel → parseF fuel ts ≠ Except.error ParseError.outOfFuel) ∧
      (3 * ts.length + 2 ≤ fuel → parseT fuel ts ≠ Except.error ParseError.outOfFuel) ∧
      (3 * ts.length + 2 ≤ fuel →
        parseTPrime fuel ts ≠ Except.error ParseError.outOfFuel) ∧
      (3 * ts.length + 3 ≤ fuel → parseE fuel ts ≠ Except.error ParseError.outOfFuel) ∧
      (3 * ts.length + 3 ≤ fuel →
        parseEPrime fuel ts ≠ Except.error ParseError.outOfFuel) := by
  induction fuel with
  | zero =>
    intro ts
    refine ⟨?_, ?_, ?_, ?_, ?_⟩ <;> intro hf <;> omega
  | succ fuel ih =>
    intro ts
    refine ⟨?_, ?_, ?_, ?_, ?_⟩
    · intro hf h
      cases ts with
      | nil => simp [parseF] at h
      | cons t rest =>
        rw [parseF] at h
        by_cases hl : t.type = TokenType.LPAREN
        · rw [if_pos hl, pstep_error] at h
          rcases h with he | ⟨eN, ts1, hok, h⟩
          · exact (ih rest).2.2.2.1
              (by simp only [List.length_cons] at hf; omega) he
          · cases ts1 with
            | nil => simp [consumeRParenF] at h
            | cons rt rest2 =>
              rw [consumeRParenF] at h
              by_cases hr : rt.type = TokenType.RPAREN
              · rw [if_pos hr] at h
                simp at h
              · rw [if_neg hr] at h
                simp at h
        · rw [if_neg hl] at h
          by_cases hid : t.type = TokenType.ID
          · rw [if_pos hid] at h
            simp at h
          · rw [if_neg hid] at h
            simp at h
    · intro hf h
      rw [parseT, pstep_error] at h
      rcases h with hF | ⟨fN, ts1, hok, h⟩
      · exact (ih ts).1 (by omega) hF
      · rw [pstep_error] at h
        rcases h with hT | ⟨tN, ts2, hok2, h⟩
        · have hlen := (parse_consume fuel ts).1 fN ts1 hok
          exact (ih ts1).2.2.1 (by omega) hT
        · simp at h
    · intro hf h
      cases ts with
      | nil => simp [parseTPrime] at h
      | cons t rest =>
        rw [parseTPrime] at h
        by_cases hp : t.type = TokenType.MULTIPLY
        · rw [if_pos hp, pstep_error] at h
          rcases h with hF | ⟨fN, ts1, hok, h⟩
          · exact (ih rest).1 (by simp only [List.length_cons] at hf; omega) hF
          · rw [pstep_error] at h
            rcases h with hT | ⟨tN, ts2, hok2, h⟩
            · have hlen := (parse_consume fuel rest).1 fN ts1 hok
              exact (ih ts1).2.2.1
                (by simp only [List.length_cons] at hf; omega) hT
            · simp at h
        · rw [if_neg hp] at h
          simp at h
    · intro hf h
      rw [parseE, pstep_error] at h
      rcases h with hT | ⟨tN, ts1, hok, h⟩
      · exact (ih ts).2.1 (by omega) hT
      · rw [pstep_error] at h
        rcases h with hE | ⟨eN, ts2, hok2, h⟩
        · have hlen := (parse_consume fuel ts).2.1 tN ts1 hok
          exact (ih ts1).2.2.2.2 (by omega) hE
        · simp at h
    · intro hf h
      cases ts with
      | nil => simp [parseEPrime] at h
      | cons t rest =>
        rw [parseEPrime] at h
        by_cases hp : t.type = TokenType.PLUS
        · rw [if_pos hp, pstep_error] at h
          rcases h with hT | ⟨tN, ts1, hok, h⟩
          · exact (ih rest).2.1 (by simp only [List.length_cons] at hf; omega) hT
          · rw [pstep_error] at h
            rcases h with hE | ⟨eN, ts2, hok2, h⟩
            · have hlen := (parse_consume fuel rest).2.1 tN ts1 hok
              exact (ih ts1).2.2.2.2
                (by simp only [List.length_cons] at hf; omega) hE
            · simp at h
        · rw [if_neg hp] at h
          simp at h

/-- Every error of the paren scan is the unmatched-closing semantic error. -/
theorem checkParens_error_shape :
    ∀ (l : List Token) (n : Int) (e : ParseError), checkParens l n = Except.error e →
      ∃ p t, e = ParseError.semanticError "Unmatched closing parenthesis" p t
        "parentheses balance"
  | [], n, e => by intro h; simp [checkParens] at h
  | t :: rest, n, e => by
    intro h
    rw [checkParens] at h
    by_cases hl : t.type = TokenType.LPAREN
    · rw [if_pos hl] at h
      exact checkParens_error_shape rest (n + 1) e h
    · rw [if_neg hl] at h
      by_cases hr : t.type = TokenType.RPAREN
      · rw [if_pos hr] at h
        by_cases hneg : n - 1 < 0
        · rw [if_pos hneg] at h
          injection h with h
          exact ⟨some t.position, some t, h.symm⟩
        · rw [if_neg hneg] at h
          exact checkParens_error_shape rest (n - 1) e h
      · rw [if_neg hr] at h
        exact checkParens_error_shape rest n e h

/-- Every error of the semantic pre-checks is a `semanticError`. -/
theorem semanticAnalysis_error_shape (ts : List Token) (e : ParseError)
    (h : performSemanticAnalysis ts = Except.error e) :
    ∃ m p t c, e = ParseError.semanticError m p t c := by
  cases ts with
  | nil => simp [performSemanticAnalysis] at h
  | cons t0 rest =>
    rw [performSemanticAnalysis] at h
    cases hfc : findConsecutive (t0 :: rest) with
    | some ab =>
      obtain ⟨a, b⟩ := ab
      rw [hfc] at h
      injection h with h
      exact ⟨_, _, _, _, h.symm⟩
    | none =>
      rw [hfc] at h
      by_cases hstart : isOpType t0.type = true
      · rw [if_pos hstart] at h
        injection h with h
        exact ⟨_, _, _, _, h.symm⟩
      · rw [if_neg hstart] at h
        simp only at h
        by_cases hend : isOpType ((t0 :: rest).getLast (by simp)).type = true
        · rw [if_pos hend] at h
          injection h with h
          exact ⟨_, _, _, _, h.symm⟩
        · rw [if_neg hend] at h
          cases hcp : checkParens (t0 :: rest) 0 with
          | error e2 =>
            rw [hcp] at h
            injection h with h
            obtain ⟨p, t, he⟩ := checkParens_error_shape (t0 :: rest) 0 e2 hcp
            exact ⟨_, _, _, _, h ▸ he⟩
          | ok n =>
            rw [hcp] at h
            by_cases hpos : n > 0
            · simp only [hpos, if_pos] at h
              injection h with h
              exact ⟨_, _, _, _, h.symm⟩
            · exact absurd h (by simp [hpos])

/-- Every error of a derivation routine is out-of-fuel, unexpected end of
input, or a syntax error (never a semantic error). -/
theorem parse_error_shape (fuel : Nat) :
    ∀ (ts : List Token) (e : ParseError),
      (parseF fuel ts = Except.error e ∨ parseT fuel ts = Except.error e ∨
        parseE fuel ts = Except.error e ∨ parseEPrime fuel ts = Except.error e ∨
        parseTPrime fuel ts = Except.error e) →
      e = ParseError.outOfFuel ∨ (∃ s, e = ParseError.unexpectedEndOfInput s) ∨
        ∃ m p f x, e = ParseError.syntaxError m p f x := by
  induction fuel with
  | zero =>
    intro ts e h
    refine Or.inl ?_
    rcases h with h | h | h | h | h
    · rw [parseF] at h
      injection h with h
      exact h.symm
    · rw [parseT] at h
      injection h with h
      exact h.symm
    · rw [parseE] at h
      injection h with h
      exact h.symm
    · rw [parseEPrime] at h
      injection h with h
      exact h.symm
    · rw [parseTPrime] at h
      injection h with h
      exact h.symm
  | succ fuel ih =>
    intro ts e h
    rcases h with h | h | h | h | h
    · cases ts with
      | nil =>
        simp [parseF] at h
        exact Or.inr (Or.inl ⟨_, h.symm⟩)
      | cons t rest =>
        rw [parseF] at h
        by_cases hl : t.type = TokenType.LPAREN
        · rw [if_pos hl, pstep_error] at h
          rcases h with he | ⟨eN, ts1, hok, h⟩
          · exact ih rest e (Or.inr (Or.inr (Or.inl he)))
          · cases ts1 with
            | nil =>
              simp [consumeRParenF] at h
              exact Or.inr (Or.inl ⟨_, h.symm⟩)
            | cons rt rest2 =>
              rw [consumeRParenF] at h
              by_cases hr : rt.type = TokenType.RPAREN
              · rw [if_pos hr] at h
                simp at h
              · rw [if_neg hr] at h
                injection h with h
                exact Or.inr (Or.inr ⟨_, _, _, _, h.symm⟩)
        · rw [if_neg hl] at h
          by_cases hid : t.type = TokenType.ID
          · rw [if_pos hid] at h
            simp at h
          · rw [if_neg hid] at h
            injection h with h
            exact Or.inr (Or.inr ⟨_, _, _, _, h.symm⟩)
    · rw [parseT, pstep_error] at h
      rcases h with hF | ⟨fN, ts1, hok, h⟩
      · exact ih ts e (Or.inl hF)
      · rw [pstep_error] at h
        rcases h with hT | ⟨tN, ts2, hok2, h⟩
        · exact ih ts1 e (Or.inr (Or.inr (Or.inr (Or.inr hT))))
        · simp at h
    · rw [parseE, pstep_error] at h
      rcases h with hT | ⟨tN, ts1, hok, h⟩
      · exact ih ts e (Or.inr (Or.inl hT))
      · rw [pstep_error] at h
        rcases h with hE | ⟨eN, ts2, hok2, h⟩
        · exact ih ts1 e (Or.inr (Or.inr (Or.inr (Or.inl hE))))
        · simp at h
    · cases ts with
      | nil => simp [parseEPrime] at h
      | cons t rest =>
        rw [parseEPrime] at h
        by_cases hp : t.type = TokenType.PLUS
        · rw [if_pos hp, pstep_error] at h
          rcases h with hT | ⟨tN, ts1, hok, h⟩
          · exact ih rest e (Or.inr (Or.inl hT))
          · rw [pstep_error] at h
            rcases h with hE | ⟨eN, ts2, hok2, h⟩
            · exact ih ts1 e (Or.inr (Or.inr (Or.inr (Or.inl hE))))
            · simp at h
        · rw [if_neg hp] at h
          simp at h
    · cases ts with
      | nil => simp [parseTPrime] at h
      | cons t rest =>
        rw [parseTPrime] at h
        by_cases hp : t.type = TokenType.MULTIPLY
        · rw [if_pos hp, pstep_error] at h
          rcases h with hF | ⟨fN, ts1, hok, h⟩
          · exact ih rest e (Or.inl hF)
          · rw [pstep_error] at h
            rcases h with hT | ⟨tN, ts2, hok2, h⟩
            · exact ih ts1 e (Or.inr (Or.inr (Or.inr (Or.inr hT))))
            · simp at h
        · rw [if_neg hp] at h
          simp at h

/-- Claim C9: for every finite token sequence the parse terminates without
exhausting the fuel budget `3 * n + 3`, because every routine consumes
tokens: `F`, `T` and `E` consume at least one token on success, and the
primed routines never grow the remaining input. -/
theorem claim_C9_termination (ts : List Token) :
    parseTokens ts ≠ Except.error ParseError.outOfFuel ∧
    (∀ fuel n r, parseE fuel ts = Except.ok (n, r) → r.length < ts.length) ∧
    (∀ fuel n r, parseT fuel ts = Except.ok (n, r) → r.length < ts.length) ∧
    (∀ fuel n r, parseF fuel ts = Except.ok (n, r) → r.length < ts.length) ∧
    (∀ fuel n r, parseEPrime fuel ts = Except.ok (n, r) → r.length ≤ ts.length) ∧
    (∀ fuel n r, parseTPrime fuel ts = Except.ok (n, r) → r.length ≤ ts.length) := by
  refine ⟨?_, fun fuel n r h => (parse_consume fuel ts).2.2.1 n r h,
    fun fuel n r h => (parse_consume fuel ts).2.1 n r h,
    fun fuel n r h => (parse_consume fuel ts).1 n r h,
    fun fuel n r h => (parse_consume fuel ts).2.2.2.1 n r h,
    fun fuel n r h => (parse_consume fuel ts).2.2.2.2 n r h⟩
  intro h
  cases ts with
  | nil => simp [parseTokens] at h
  | cons t0 rest =>
    rw [parseTokens] at h
    cases hsem : performSemanticAnalysis (t0 :: rest) with
    | error e =>
      rw [hsem] at h
      dsimp only at h
      injection h with h
      subst h
      obtain ⟨m, p, t, c, he⟩ := semanticAnalysis_error_shape _ _ hsem
      simp at he
    | ok u =>
      cases u
      rw [hsem] at h
      dsimp only at h
      cases hE : parseE (parseFuel (t0 :: rest)) (t0 :: rest) with
      | error e =>
        rw [hE] at h
        dsimp only at h
        injection h with h
        subst h
        exact (parse_fuel (parseFuel (t0 :: rest)) (t0 :: rest)).2.2.2.1
          (Nat.le_refl _) hE
      | ok pr =>
        obtain ⟨root, remaining⟩ := pr
        rw [hE] at h
        dsimp only at h
        cases remaining with
        | cons r rs => simp at h
        | nil =>
          cases hev : evaluate root with
          | error u2 =>
            rw [hev] at h
            simp at h
          | ok pr2 =>
            obtain ⟨root2, v⟩ := pr2
            rw [hev] at h
            simp at h

/-- Witness for C9: the bound applied to the single-token input `3`. -/
theorem claim_C9_termination_witness :
    parseTokens [(⟨TokenType.ID, "3", 0⟩ : Token)] ≠
      Except.error ParseError.outOfFuel ∧
    ([] : List Token).length < [(⟨TokenType.ID, "3", 0⟩ : Token)].length :=
  ⟨(claim_C9_termination [(⟨TokenType.ID, "3", 0⟩ : Token)]).1,
   (claim_C9_termination [(⟨TokenType.ID, "3", 0⟩ : Token)]).2.1 6 _ [] rfl⟩

/-- Structural induction over parse trees: to prove a property of every node
it suffices to prove it for a node assuming it for all its children. -/
theorem node_induction (P : Node → Prop)
    (step : ∀ rule tok val children,
      (∀ c ∈ children, P c) → P (Node.node rule tok val children)) :
    ∀ n, P n
  | Node.node r t v cs => step r t v cs (fun c hc => node_induction P step c)
termination_by n => sizeOf n
decreasing_by
  have := List.sizeOf_lt_of_mem hc
  simp only [Node.node.sizeOf_spec]
  omega

/-- A node carrying a token is a leaf for leaf extraction. -/
theorem leafTokens_some (rule : String) (t : Token) (v : Option Int)
    (cs : List Node) : leafTokens (Node.node rule (some t) v cs) = [t] := rfl

/-- A node without a token contributes its children leaves. -/
theorem leafTokens_none (rule : String) (v : Option Int) (cs : List Node) :
    leafTokens (Node.node rule none v cs) = leafTokensList cs := rfl

/-- Leaves of a non-empty sibling list. -/
theorem leafTokensList_cons (c : Node) (cs : List Node) :
    leafTokensList (c :: cs) = leafTokens c ++ leafTokensList cs := rfl

/-- Stability of the shared `E`/`T` branch body. -/
theorem evalBinary_stable
    (comb : Option Int → Option Int → Except Unit (Option Int))
    (rule : String) (tok : Option Token) (val : Option Int)
    (children : List Node) (n2 : Node) (v : Option Int)
    (hih : ∀ c ∈ children, EvalStable c)
    (h : evalBinary comb rule tok val children = Except.ok (n2, v)) :
    ∃ children2, n2 = Node.node rule tok v children2 ∧
      evalBinary comb rule tok v children2 = Except.ok (n2, v) ∧
      leafTokensList children2 = leafTokensList children := by
  cases children with
  | nil =>
    have hev : evalBinary comb rule tok val [] =
        Except.ok (Node.node rule tok val [], val) := rfl
    rw [hev] at h
    injection h with h
    rw [Prod.mk.injEq] at h
    obtain ⟨hn, hv⟩ := h
    subst hn
    subst hv
    exact ⟨[], rfl, rfl, rfl⟩
  | cons c0 cs1 =>
    cases cs1 with
    | nil =>
      have hev : evalBinary comb rule tok val [c0] =
          Except.ok (Node.node rule tok val [c0], val) := rfl
      rw [hev] at h
      injection h with h
      rw [Prod.mk.injEq] at h
      obtain ⟨hn, hv⟩ := h
      subst hn
      subst hv
      exact ⟨[c0], rfl, rfl, rfl⟩
    | cons c1 rest =>
      rw [evalBinary] at h
      cases hc0 : evaluate c0 with
      | error e => rw [hc0] at h; exact absurd h (by simp)
      | ok p0 =>
        obtain ⟨c0s, a⟩ := p0
        rw [hc0] at h
        dsimp only at h
        cases hc1 : evaluate c1 with
        | error e => rw [hc1] at h; exact absurd h (by simp)
        | ok p1 =>
          obtain ⟨c1s, b⟩ := p1
          rw [hc1] at h
          dsimp only at h
          cases hcomb : comb a b with
          | error e => rw [hcomb] at h; exact absurd h (by simp)
          | ok vres =>
            rw [hcomb] at h
            dsimp only at h
            injection h with h
            rw [Prod.mk.injEq] at h
            obtain ⟨hn, hv⟩ := h
            subst hn
            subst hv
            obtain ⟨hs0, hl0⟩ := hih c0 (by simp) c0s a hc0
            obtain ⟨hs1, hl1⟩ := hih c1 (by simp) c1s b hc1
            refine ⟨c0s :: c1s :: rest, rfl, ?_, ?_⟩
            · rw [evalBinary, hs0]
              dsimp only
              rw [hs1]
              dsimp only
              rw [hcomb]
            · simp only [leafTokensList_cons, hl0, hl1]

/-- Stability of the shared `E\x27`/`T\x27` branch body. -/
theorem evalPrimed_stable (base : Int)
    (comb : Option Int → Option Int → Except Unit (Option Int))
    (rule : String) (tok : Option Token) (val : Option Int)
    (children : List Node) (n2 : Node) (v : Option Int)
    (hih : ∀ c ∈ children, EvalStable c)
    (h : evalPrimed base comb rule tok val children = Except.ok (n2, v)) :
    ∃ children2, n2 = Node.node rule tok v children2 ∧
      evalPrimed base comb rule tok v children2 = Except.ok (n2, v) ∧
      leafTokensList children2 = leafTokensList children := by
  cases children with
  | nil =>
    have hev : evalPrimed base comb rule tok val [] =
        Except.ok (Node.node rule tok (some base) [], some base) := rfl
    rw [hev] at h
    injection h with h
    rw [Prod.mk.injEq] at h
    obtain ⟨hn, hv⟩ := h
    subst hn
    subst hv
    exact ⟨[], rfl, rfl, rfl⟩
  | cons c0 cs1 =>
    cases cs1 with
    | nil =>
      have hev : evalPrimed base comb rule tok val [c0] =
          Except.ok (Node.node rule tok val [c0], val) := rfl
      rw [hev] at h
      injection h with h
      rw [Prod.mk.injEq] at h
      obtain ⟨hn, hv⟩ := h
      subst hn
      subst hv
      exact ⟨[c0], rfl, rfl, rfl⟩
    | cons c1 cs2 =>
      cases cs2 with
      | nil =>
        rw [evalPrimed] at h
        cases hc1 : evaluate c1 with
        | error e => rw [hc1] at h; exact absurd h (by simp)
        | ok p1 =>
          obtain ⟨c1s, a⟩ := p1
          rw [hc1] at h
          dsimp only at h
          injection h with h
          rw [Prod.mk.injEq] at h
          obtain ⟨hn, hv⟩ := h
          subst hn
          subst hv
          obtain ⟨hs1, hl1⟩ := hih c1 (by simp) c1s a hc1
          refine ⟨[c0, c1s], rfl, ?_, ?_⟩
          · rw [evalPrimed, hs1]
          · simp only [leafTokensList_cons, hl1]
      | cons c2 rest =>
        rw [evalPrimed] at h
        cases hc1 : evaluate c1 with
        | error e => rw [hc1] at h; exact absurd h (by simp)
        | ok p1 =>
          obtain ⟨c1s, a⟩ := p1
          rw [hc1] at h
          dsimp only at h
          cases hc2 : evaluate c2 with
          | error e => rw [hc2] at h; exact absurd h (by simp)
          | ok p2 =>
            obtain ⟨c2s, b⟩ := p2
            rw [hc2] at h
            dsimp only at h
            cases hcomb : comb a b with
            | error e => rw [hcomb] at h; exact absurd h (by simp)
            | ok vres =>
              rw [hcomb] at h
              dsimp only at h
              injection h with h
              rw [Prod.mk.injEq] at h
              obtain ⟨hn, hv⟩ := h
              subst hn
              subst hv
              obtain ⟨hs1, hl1⟩ := hih c1 (by simp) c1s a hc1
              obtain ⟨hs2, hl2⟩ := hih c2 (by simp) c2s b hc2
              refine ⟨c0 :: c1s :: c2s :: rest, rfl, ?_, ?_⟩
              · rw [evalPrimed, hs1]
                dsimp only
                rw [hs2]
                dsimp only
                rw [hcomb]
              · simp only [leafTokensList_cons, hl1, hl2]

/-- Stability of the `F` branch body. -/
theorem evalF_stable (rule : String) (tok : Option Token) (val : Option Int)
    (children : List Node) (n2 : Node) (v : Option Int)
    (hih : ∀ c ∈ children, EvalStable c)
    (h : evalF rule tok val children = Except.ok (n2, v)) :
    ∃ children2, n2 = Node.node rule tok v children2 ∧
      evalF rule tok v children2 = Except.ok (n2, v) ∧
      leafTokensList children2 = leafTokensList children := by
  cases children with
  | nil =>
    have hev : evalF rule tok val [] =
        Except.ok (Node.node rule tok val [], val) := rfl
    rw [hev] at h
    injection h with h
    rw [Prod.mk.injEq] at h
    obtain ⟨hn, hv⟩ := h
    subst hn
    subst hv
    exact ⟨[], rfl, rfl, rfl⟩
  | cons c0 cs1 =>
    cases cs1 with
    | nil =>
      rw [evalF] at h
      cases hc0 : evaluate c0 with
      | error e => rw [hc0] at h; exact absurd h (by simp)
      | ok p0 =>
        obtain ⟨c0s, a⟩ := p0
        rw [hc0] at h
        dsimp only at h
        injection h with h
        rw [Prod.mk.injEq] at h
        obtain ⟨hn, hv⟩ := h
        subst hn
        subst hv
        obtain ⟨hs0, hl0⟩ := hih c0 (by simp) c0s a hc0
        refine ⟨[c0s], rfl, ?_, ?_⟩
        · rw [evalF, hs0]
        · simp only [leafTokensList_cons, hl0]
    | cons c1 cs2 =>
      cases cs2 with
      | nil =>
        have hev : evalF rule tok val [c0, c1] =
            Except.ok (Node.node rule tok val [c0, c1], val) := rfl
        rw [hev] at h
        injection h with h
        rw [Prod.mk.injEq] at h
        obtain ⟨hn, hv⟩ := h
        subst hn
        subst hv
        exact ⟨[c0, c1], rfl, rfl, rfl⟩
      | cons c2 rest =>
        rw [evalF] at h
        cases hc1 : evaluate c1 with
        | error e => rw [hc1] at h; exact absurd h (by simp)
        | ok p1 =>
          obtain ⟨c1s, a⟩ := p1
          rw [hc1] at h
          dsimp only at h
          injection h with h
          rw [Prod.mk.injEq] at h
          obtain ⟨hn, hv⟩ := h
          subst hn
          subst hv
          obtain ⟨hs1, hl1⟩ := hih c1 (by simp) c1s a hc1
          refine ⟨c0 :: c1s :: c2 :: rest, rfl, ?_, ?_⟩
          · rw [evalF, hs1]
          · simp only [leafTokensList_cons, hl1]

/-- Evaluation is stable on every node: re-evaluating the returned node
returns it unchanged with the same value, and the leaves are preserved. -/
theorem evaluate_stable : ∀ n, EvalStable n := by
  intro n
  induction n using node_induction with
  | step rule tok val children ih =>
    intro n2 v h
    simp only [evaluate] at h
    by_cases hid : (tok.map Token.type) = some TokenType.ID
    · rw [if_pos hid] at h
      cases tok with
      | none => simp at hid
      | some t =>
        dsimp only at h
        injection h with h
        rw [Prod.mk.injEq] at h
        obtain ⟨hn, hv⟩ := h
        subst hn
        subst hv
        constructor
        · simp only [evaluate]
          rw [if_pos hid]
        · rfl
    · rw [if_neg hid] at h
      by_cases hE : rule = "E"
      · rw [if_pos hE] at h
        obtain ⟨children2, hn2, hev, hleaf⟩ :=
          evalBinary_stable condAdd rule tok val children n2 v ih h
        subst hn2
        refine ⟨?_, ?_⟩
        · simp only [evaluate]
          rw [if_neg hid, if_pos hE]
          exact hev
        · cases tok with
          | some t => rfl
          | none => simp only [leafTokens_none]; exact hleaf
      · rw [if_neg hE] at h
        by_cases hEP : rule = "E\x27"
        · rw [if_pos hEP] at h
          obtain ⟨children2, hn2, hev, hleaf⟩ :=
            evalPrimed_stable 0 condAdd rule tok val children n2 v ih h
          subst hn2
          refine ⟨?_, ?_⟩
          · simp only [evaluate]
            rw [if_neg hid, if_neg hE, if_pos hEP]
            exact hev
          · cases tok with
            | some t => rfl
            | none => simp only [leafTokens_none]; exact hleaf
        · rw [if_neg hEP] at h
          by_cases hT : rule = "T"
          · rw [if_pos hT] at h
            obtain ⟨children2, hn2, hev, hleaf⟩ :=
              evalBinary_stable condMulT rule tok val children n2 v ih h
            subst hn2
            refine ⟨?_, ?_⟩
            · simp only [evaluate]
              rw [if_neg hid, if_neg hE, if_neg hEP, if_pos hT]
              exact hev
            · cases tok with
              | some t => rfl
              | none => simp only [leafTokens_none]; exact hleaf
          · rw [if_neg hT] at h
            by_cases hTP : rule = "T\x27"
            · rw [if_pos hTP] at h
              obtain ⟨children2, hn2, hev, hleaf⟩ :=
                evalPrimed_stable 1 condMul rule tok val children n2 v ih h
              subst hn2
              refine ⟨?_, ?_⟩
              · simp only [evaluate]
                rw [if_neg hid, if_neg hE, if_neg hEP, if_neg hT, if_pos hTP]
                exact hev
              · cases tok with
                | some t => rfl
                | none => simp only [leafTokens_none]; exact hleaf
            · rw [if_neg hTP] at h
              by_cases hF : rule = "F"
              · rw [if_pos hF] at h
                obtain ⟨children2, hn2, hev, hleaf⟩ :=
                  evalF_stable rule tok val children n2 v ih h
                subst hn2
                refine ⟨?_, ?_⟩
                · simp only [evaluate]
                  rw [if_neg hid, if_neg hE, if_neg hEP, if_neg hT, if_neg hTP,
                    if_pos hF]
                  exact hev
                · cases tok with
                  | some t => rfl
                  | none => simp only [leafTokens_none]; exact hleaf
              · rw [if_neg hF] at h
                injection h with h
                rw [Prod.mk.injEq] at h
                obtain ⟨hn, hv⟩ := h
                subst hn
                subst hv
                refine ⟨?_, rfl⟩
                simp only [evaluate]
                rw [if_neg hid, if_neg hE, if_neg hEP, if_neg hT, if_neg hTP,
                  if_neg hF]

/-- Claim C8: evaluation is deterministic and idempotent: a second `evaluate`
call returns the same value as the first, leaves every cached node value
unchanged, and the rendered tree string is identical across repeated calls. -/
theorem claim_C8_evaluation_idempotent (n n1 n2 : Node) (v w : Option Int)
    (h1 : evaluate n = Except.ok (n1, v)) (h2 : evaluate n1 = Except.ok (n2, w)) :
    n2 = n1 ∧ w = v ∧ getTreeString n2 "" true = getTreeString n1 "" true := by
  obtain ⟨hs, -⟩ := evaluate_stable n n1 v h1
  rw [hs] at h2
  injection h2 with h2
  rw [Prod.mk.injEq] at h2
  obtain ⟨hn, hv⟩ := h2
  exact ⟨hn.symm, hv.symm, by rw [hn]⟩

/-- Witness for C8: idempotence at the evaluated tree of `3+4*5`. -/
theorem claim_C8_evaluation_idempotent_witness :
    ∃ n1 v, evaluate (Node.node "E\x27" none none []) = Except.ok (n1, v) ∧
      ∃ n2 w, evaluate n1 = Except.ok (n2, w) ∧
        n2 = n1 ∧ w = v ∧ getTreeString n2 "" true = getTreeString n1 "" true :=
  ⟨Node.node "E\x27" none (some 0) [], some 0, rfl,
   Node.node "E\x27" none (some 0) [], some 0, rfl,
   claim_C8_evaluation_idempotent (Node.node "E\x27" none none [])
     (Node.node "E\x27" none (some 0) []) (Node.node "E\x27" none (some 0) [])
     (some 0) (some 0) rfl rfl⟩

/-- Leaves of the empty sibling list. -/
theorem leafTokensList_nil : leafTokensList [] = [] := rfl

/-- A successful routine splits its input into the tree leaves (in order)
followed by the remaining tokens. -/
theorem parse_decomp (fuel : Nat) :
    ∀ ts : List Token,
      (∀ n r, parseF fuel ts = Except.ok (n, r) → leafTokens n ++ r = ts) ∧
      (∀ n r, parseT fuel ts = Except.ok (n, r) → leafTokens n ++ r = ts) ∧
      (∀ n r, parseE fuel ts = Except.ok (n, r) → leafTokens n ++ r = ts) ∧
      (∀ n r, parseEPrime fuel ts = Except.ok (n, r) → leafTokens n ++ r = ts) ∧
      (∀ n r, parseTPrime fuel ts = Except.ok (n, r) → leafTokens n ++ r = ts) := by
  induction fuel with
  | zero =>
    intro ts
    refine ⟨?_, ?_, ?_, ?_, ?_⟩ <;> intro n r h <;>
      simp [parseF, parseT, parseE, parseEPrime, parseTPrime] at h
  | succ fuel ih =>
    intro ts
    refine ⟨?_, ?_, ?_, ?_, ?_⟩
    · intro n r h
      cases ts with
      | nil => simp [parseF] at h
      | cons t rest =>
        rw [parseF] at h
        by_cases hl : t.type = TokenType.LPAREN
        · rw [if_pos hl, pstep_ok] at h
          obtain ⟨eN, ts1, he, h⟩ := h
          have hIH := (ih rest).2.2.1 eN ts1 he
          cases ts1 with
          | nil => simp [consumeRParenF] at h
          | cons rt rest2 =>
            rw [consumeRParenF] at h
            by_cases hr : rt.type = TokenType.RPAREN
            · rw [if_pos hr] at h
              injection h with h
              rw [Prod.mk.injEq] at h
              obtain ⟨hn, hr2⟩ := h
              subst hn
              subst hr2
              simp only [leafTokens_none, leafTokensList_cons, leafTokensList_nil,
                leafTokens_some, List.cons_append, List.nil_append, List.append_nil,
                List.append_assoc]
              rw [hIH]
            · rw [if_neg hr] at h
              simp at h
        · rw [if_neg hl] at h
          by_cases hid : t.type = TokenType.ID
          · rw [if_pos hid] at h
            injection h with h
            rw [Prod.mk.injEq] at h
            obtain ⟨hn, hr2⟩ := h
            subst hn
            subst hr2
            simp [leafTokens_none, leafTokensList_cons, leafTokensList_nil,
              leafTokens_some]
          · rw [if_neg hid] at h
            simp at h
    · intro n r h
      rw [parseT, pstep_ok] at h
      obtain ⟨fN, ts1, hf, h⟩ := h
      rw [pstep_ok] at h
      obtain ⟨tN, ts2, ht, h⟩ := h
      injection h with h
      rw [Prod.mk.injEq] at h
      obtain ⟨hn, hr2⟩ := h
      subst hn
      subst hr2
      have h1 := (ih ts).1 fN ts1 hf
      have h2 := (ih ts1).2.2.2.2 tN ts2 ht
      simp only [leafTokens_none, leafTokensList_cons, leafTokensList_nil,
        List.append_nil, List.append_assoc]
      rw [h2, h1]
    · intro n r h
      rw [parseE, pstep_ok] at h
      obtain ⟨tN, ts1, ht, h⟩ := h
      rw [pstep_ok] at h
      obtain ⟨eN, ts2, he, h⟩ := h
      injection h with h
      rw [Prod.mk.injEq] at h
      obtain ⟨hn, hr2⟩ := h
      subst hn
      subst hr2
      have h1 := (ih ts).2.1 tN ts1 ht
      have h2 := (ih ts1).2.2.2.1 eN ts2 he
      simp only [leafTokens_none, leafTokensList_cons, leafTokensList_nil,
        List.append_nil, List.append_assoc]
      rw [h2, h1]
    · intro n r h
      cases ts with
      | nil =>
        rw [parseEPrime] at h
        injection h with h
        rw [Prod.mk.injEq] at h
        obtain ⟨hn, hr2⟩ := h
        subst hn
        subst hr2
        rfl
      | cons t rest =>
        rw [parseEPrime] at h
        by_cases hp : t.type = TokenType.PLUS
        · rw [if_pos hp, pstep_ok] at h
          obtain ⟨tN, ts1, ht, h⟩ := h
          rw [pstep_ok] at h
          obtain ⟨eN, ts2, he, h⟩ := h
          injection h with h
          rw [Prod.mk.injEq] at h
          obtain ⟨hn, hr2⟩ := h
          subst hn
          subst hr2
          have h1 := (ih rest).2.1 tN ts1 ht
          have h2 := (ih ts1).2.2.2.1 eN ts2 he
          simp only [leafTokens_none, leafTokensList_cons, leafTokensList_nil,
            leafTokens_some, List.cons_append, List.nil_append, List.append_nil,
            List.append_assoc]
          rw [h2, h1]
        · rw [if_neg hp] at h
          injection h with h
          rw [Prod.mk.injEq] at h
          obtain ⟨hn, hr2⟩ := h
          subst hn
          subst hr2
          rfl
    · intro n r h
      cases ts with
      | nil =>
        rw [parseTPrime] at h
        injection h with h
        rw [Prod.mk.injEq] at h
        obtain ⟨hn, hr2⟩ := h
        subst hn
        subst hr2
        rfl
      | cons t rest =>
        rw [parseTPrime] at h
        by_cases hp : t.type = TokenType.MULTIPLY
        · rw [if_pos hp, pstep_ok] at h
          obtain ⟨fN, ts1, hf, h⟩ := h
          rw [pstep_ok] at h
          obtain ⟨tN, ts2, ht, h⟩ := h
          injection h with h
          rw [Prod.mk.injEq] at h
          obtain ⟨hn, hr2⟩ := h
          subst hn
          subst hr2
          have h1 := (ih rest).1 fN ts1 hf
          have h2 := (ih ts1).2.2.2.2 tN ts2 ht
          simp only [leafTokens_none, leafTokensList_cons, leafTokensList_nil,
            leafTokens_some, List.cons_append, List.nil_append, List.append_nil,
            List.append_assoc]
          rw [h2, h1]
        · rw [if_neg hp] at h
          injection h with h
          rw [Prod.mk.injEq] at h
          obtain ⟨hn, hr2⟩ := h
          subst hn
          subst hr2
          rfl

/-- A successful tokenize call returns the scan tokens of the trimmed input. -/
theorem tokenizeChars_ok_fst (s : List Char) (ts : List Token)
    (h : tokenizeChars s = Except.ok ts) : ts = (scanChars (pyStrip s) 0).1 := by
  unfold tokenizeChars at h
  by_cases he : (pyStrip s).isEmpty
  · simp [he] at h
  · simp only [he, Bool.false_eq_true, if_neg, not_false_eq_true] at h
    cases herr : (scanChars (pyStrip s) 0).2 with
    | nil =>
      rw [herr] at h
      simp only at h
      injection h with h
      exact h.symm
    | cons e2 es =>
      rw [herr] at h
      simp at h

/-- Every token produced for a character carries exactly that character as
its text. -/
theorem charToken_value_data (c : Char) (p : Nat) :
    (charToken c p).value.data = [c] := by
  unfold charToken
  split_ifs with h1 h2 h3 h4 h5
  · subst h1; rfl
  · subst h2; rfl
  · subst h3; rfl
  · subst h4; rfl
  · rfl
  · rfl

/-- The characters of the scan tokens are the non-whitespace characters. -/
theorem scanChars_flat_values (l : List Char) :
    ∀ p, ((scanChars l p).1).flatMap (fun t => t.value.data) =
      l.filter (fun c => !c.isWhitespace) := by
  induction l with
  | nil => intro p; rfl
  | cons c rest ih =>
    intro p
    by_cases hws : c.isWhitespace
    · simp [scanChars, hws, ih (p + 1)]
    · simp [scanChars, hws, ih (p + 1), charToken_value_data]

/-- Dropping leading whitespace does not change the non-whitespace filter. -/
theorem filter_nonws_dropWhile (l : List Char) :
    (l.dropWhile Char.isWhitespace).filter (fun c => !c.isWhitespace) =
      l.filter (fun c => !c.isWhitespace) := by
  induction l with
  | nil => rfl
  | cons c rest ih =>
    by_cases hws : c.isWhitespace
    · simp [List.dropWhile_cons, hws, ih]
    · simp [List.dropWhile_cons, hws]

/-- Trimming does not change the non-whitespace characters. -/
theorem filter_nonws_pyStrip (s : List Char) :
    (pyStrip s).filter (fun c => !c.isWhitespace) =
      s.filter (fun c => !c.isWhitespace) := by
  unfold pyStrip
  rw [List.filter_reverse, filter_nonws_dropWhile, List.filter_reverse,
    List.reverse_reverse, filter_nonws_dropWhile]

/-- Claim C6: for every accepted input, concatenating the texts of the parse
tree terminal leaves, left to right, reconstructs exactly the non-whitespace
characters of the original input in order. -/
theorem claim_C6_leaves_reconstruct_input (s : List Char) (ts : List Token)
    (root : Node) (v : Option Int)
    (h1 : tokenizeChars s = Except.ok ts)
    (h2 : parseTokens ts = Except.ok (root, v)) :
    (leafTokens root).flatMap (fun t => t.value.data) =
      s.filter (fun c => !c.isWhitespace) := by
  cases ts with
  | nil => simp [parseTokens] at h2
  | cons t0 rest =>
    rw [parseTokens] at h2
    cases hsem : performSemanticAnalysis (t0 :: rest) with
    | error e =>
      rw [hsem] at h2
      simp at h2
    | ok u =>
      cases u
      rw [hsem] at h2
      dsimp only at h2
      cases hE : parseE (parseFuel (t0 :: rest)) (t0 :: rest) with
      | error e =>
        rw [hE] at h2
        simp at h2
      | ok pr =>
        obtain ⟨root0, remaining⟩ := pr
        rw [hE] at h2
        dsimp only at h2
        cases remaining with
        | cons r rs => simp at h2
        | nil =>
          cases hev : evaluate root0 with
          | error u2 =>
            rw [hev] at h2
            simp at h2
          | ok pr2 =>
            obtain ⟨root2, v0⟩ := pr2
            rw [hev] at h2
            dsimp only at h2
            injection h2 with h2
            rw [Prod.mk.injEq] at h2
            obtain ⟨hroot, hv⟩ := h2
            subst hroot
            subst hv
            obtain ⟨-, hleaf⟩ := evaluate_stable root0 root2 v0 hev
            have hdec := (parse_decomp (parseFuel (t0 :: rest)) (t0 :: rest)).2.2.1
              root0 [] hE
            rw [List.append_nil] at hdec
            rw [hleaf, hdec]
            have hts := tokenizeChars_ok_fst s (t0 :: rest) h1
            rw [hts, scanChars_flat_values (pyStrip s) 0, filter_nonws_pyStrip]

/-- Witness for C6: leaf reconstruction for the input `a`. -/
theorem claim_C6_leaves_reconstruct_input_witness :
    (leafTokens (Node.node "E" none (some 1)
        [Node.node "T" none (some 1)
          [Node.node "F" none (some 1)
            [Node.node "id" (some ⟨TokenType.ID, "a", 0⟩) (some 1) []],
           Node.node "T\x27" none (some 1) []],
         Node.node "E\x27" none (some 0) []])).flatMap (fun t => t.value.data) =
      ("a").data.filter (fun c => !c.isWhitespace) :=
  claim_C6_leaves_reconstruct_input ("a").data [⟨TokenType.ID, "a", 0⟩]
    (Node.node "E" none (some 1)
      [Node.node "T" none (some 1)
        [Node.node "F" none (some 1)
          [Node.node "id" (some ⟨TokenType.ID, "a", 0⟩) (some 1) []],
         Node.node "T\x27" none (some 1) []],
       Node.node "E\x27" none (some 0) []]) (some 1) rfl rfl

/-- Net parenthesis count distributes over append. -/
theorem openCount_append :
    ∀ a b : List Token, openCount (a ++ b) = openCount a + openCount b
  | [], b => by simp [openCount]
  | t :: rest, b => by
    have ih := openCount_append rest b
    simp only [List.cons_append, List.append_eq, openCount] at ih ⊢
    omega

/-- The tokens consumed by each successful routine are parenthesis-balanced. -/
theorem parse_balance (fuel : Nat) :
    ∀ ts : List Token,
      (∀ n r, parseF fuel ts = Except.ok (n, r) → openCount (leafTokens n) = 0) ∧
      (∀ n r, parseT fuel ts = Except.ok (n, r) → openCount (leafTokens n) = 0) ∧
      (∀ n r, parseE fuel ts = Except.ok (n, r) → openCount (leafTokens n) = 0) ∧
      (∀ n r, parseEPrime fuel ts = Except.ok (n, r) → openCount (leafTokens n) = 0) ∧
      (∀ n r, parseTPrime fuel ts = Except.ok (n, r) → openCount (leafTokens n) = 0) := by
  induction fuel with
  | zero =>
    intro ts
    refine ⟨?_, ?_, ?_, ?_, ?_⟩ <;> intro n r h <;>
      simp [parseF, parseT, parseE, parseEPrime, parseTPrime] at h
  | succ fuel ih =>
    intro ts
    refine ⟨?_, ?_, ?_, ?_, ?_⟩
    · intro n r h
      cases ts with
      | nil => simp [parseF] at h
      | cons t rest =>
        rw [parseF] at h
        by_cases hl : t.type = TokenType.LPAREN
        · rw [if_pos hl, pstep_ok] at h
          obtain ⟨eN, ts1, he, h⟩ := h
          have hb := (ih rest).2.2.1 eN ts1 he
          cases ts1 with
          | nil => simp [consumeRParenF] at h
          | cons rt rest2 =>
            rw [consumeRParenF] at h
            by_cases hr : rt.type = TokenType.RPAREN
            · rw [if_pos hr] at h
              injection h with h
              rw [Prod.mk.injEq] at h
              obtain ⟨hn, -⟩ := h
              subst hn
              simp only [leafTokens_none, leafTokensList_cons, leafTokensList_nil,
                leafTokens_some, List.append_nil]
              rw [openCount_append, openCount_append, hb]
              simp [openCount, hl, hr]
            · rw [if_neg hr] at h
              simp at h
        · rw [if_neg hl] at h
          by_cases hid : t.type = TokenType.ID
          · rw [if_pos hid] at h
            injection h with h
            rw [Prod.mk.injEq] at h
            obtain ⟨hn, -⟩ := h
            subst hn
            simp [leafTokens_none, leafTokensList_cons, leafTokensList_nil,
              leafTokens_some, openCount, hl, hid]
          · rw [if_neg hid] at h
            simp at h
    · intro n r h
      rw [parseT, pstep_ok] at h
      obtain ⟨fN, ts1, hf, h⟩ := h
      rw [pstep_ok] at h
      obtain ⟨tN, ts2, ht, h⟩ := h
      injection h with h
      rw [Prod.mk.injEq] at h
      obtain ⟨hn, -⟩ := h
      subst hn
      have h1 := (ih ts).1 fN ts1 hf
      have h2 := (ih ts1).2.2.2.2 tN ts2 ht
      simp only [leafTokens_none, leafTokensList_cons, leafTokensList_nil,
        List.append_nil]
      rw [openCount_append, h1, h2]
      omega
    · intro n r h
      rw [parseE, pstep_ok] at h
      obtain ⟨tN, ts1, ht, h⟩ := h
      rw [pstep_ok] at h
      obtain ⟨eN, ts2, he, h⟩ := h
      injection h with h
      rw [Prod.mk.injEq] at h
      obtain ⟨hn, -⟩ := h
      subst hn
      have h1 := (ih ts).2.1 tN ts1 ht
      have h2 := (ih ts1).2.2.2.1 eN ts2 he
      simp only [leafTokens_none, leafTokensList_cons, leafTokensList_nil,
        List.append_nil]
      rw [openCount_append, h1, h2]
      omega
    · intro n r h
      cases ts with
      | nil =>
        rw [parseEPrime] at h
        injection h with h
        rw [Prod.mk.injEq] at h
        obtain ⟨hn, -⟩ := h
        subst hn
        rfl
      | cons t rest =>
        rw [parseEPrime] at h
        by_cases hp : t.type = TokenType.PLUS
        · rw [if_pos hp, pstep_ok] at h
          obtain ⟨tN, ts1, ht, h⟩ := h
          rw [pstep_ok] at h
          obtain ⟨eN, ts2, he, h⟩ := h
          injection h with h
          rw [Prod.mk.injEq] at h
          obtain ⟨hn, -⟩ := h
          subst hn
          have h1 := (ih rest).2.1 tN ts1 ht
          have h2 := (ih ts1).2.2.2.1 eN ts2 he
          simp only [leafTokens_none, leafTokensList_cons, leafTokensList_nil,
            leafTokens_some, List.append_nil]
          rw [openCount_append, openCount_append, h1, h2]
          simp [openCount, hp]
        · rw [if_neg hp] at h
          injection h with h
          rw [Prod.mk.injEq] at h
          obtain ⟨hn, -⟩ := h
          subst hn
          rfl
    · intro n r h
      cases ts with
      | nil =>
        rw [parseTPrime] at h
        injection h with h
        rw [Prod.mk.injEq] at h
        obtain ⟨hn, -⟩ := h
        subst hn
        rfl
      | cons t rest =>
        rw [parseTPrime] at h
        by_cases hp : t.type = TokenType.MULTIPLY
        · rw [if_pos hp, pstep_ok] at h
          obtain ⟨fN, ts1, hf, h⟩ := h
          rw [pstep_ok] at h
          obtain ⟨tN, ts2, ht, h⟩ := h
          injection h with h
          rw [Prod.mk.injEq] at h
          obtain ⟨hn, -⟩ := h
          subst hn
          have h1 := (ih rest).1 fN ts1 hf
          have h2 := (ih ts1).2.2.2.2 tN ts2 ht
          simp only [leafTokens_none, leafTokensList_cons, leafTokensList_nil,
            leafTokens_some, List.append_nil]
          rw [openCount_append, openCount_append, h1, h2]
          simp [openCount, hp]
        · rw [if_neg hp] at h
          injection h with h
          rw [Prod.mk.injEq] at h
          obtain ⟨hn, -⟩ := h
          subst hn
          rfl

/-- Under the global pre-check facts — the last token is not an operator and
the parentheses balance to zero — no derivation routine ever raises
unexpected end of input on a suffix `r` of the token sequence whose consumed
prefix `c` has a non-negative net parenthesis count. -/
theorem parse_no_end (fuel : Nat) :
    ∀ (ts0 c r : List Token),
      endsWithOp ts0 = false → openCount ts0 = 0 → ts0 = c ++ r →
      0 ≤ openCount c →
      ((r ≠ [] → ∀ e, parseF fuel r ≠
          Except.error (ParseError.unexpectedEndOfInput e)) ∧
       (r ≠ [] → ∀ e, parseT fuel r ≠
          Except.error (ParseError.unexpectedEndOfInput e)) ∧
       (r ≠ [] → ∀ e, parseE fuel r ≠
          Except.error (ParseError.unexpectedEndOfInput e)) ∧
       (∀ e, parseEPrime fuel r ≠
          Except.error (ParseError.unexpectedEndOfInput e)) ∧
       (∀ e, parseTPrime fuel r ≠
          Except.error (ParseError.unexpectedEndOfInput e))) := by
  induction fuel with
  | zero =>
    intro ts0 c r _ _ _ _
    refine ⟨fun _ e h => ?_, fun _ e h => ?_, fun _ e h => ?_, fun e h => ?_,
      fun e h => ?_⟩
    · rw [parseF] at h; simp at h
    · rw [parseT] at h; simp at h
    · rw [parseE] at h; simp at h
    · rw [parseEPrime] at h; simp at h
    · rw [parseTPrime] at h; simp at h
  | succ fuel ih =>
    intro ts0 c r hlast hbal hsplit hc
    refine ⟨?_, ?_, ?_, ?_, ?_⟩
    · intro hne e h
      cases r with
      | nil => exact hne rfl
      | cons t rest =>
        rw [parseF] at h
        by_cases hl : t.type = TokenType.LPAREN
        · rw [if_pos hl, pstep_error] at h
          rcases h with he | ⟨eN, ts1, hok, h⟩
          · refine (ih ts0 (c ++ [t]) rest hlast hbal (by rw [hsplit]; simp)
              ?_).2.2.1 ?_ e he
            · rw [openCount_append]
              have h1 : openCount [t] = 1 := by simp [openCount, hl]
              omega
            · intro hrnil
              subst hrnil
              rw [hsplit, openCount_append] at hbal
              have h1 : openCount [t] = 1 := by simp [openCount, hl]
              omega
          · cases ts1 with
            | nil =>
              have hdec := (parse_decomp fuel rest).2.2.1 eN [] hok
              rw [List.append_nil] at hdec
              have hb := (parse_balance fuel rest).2.2.1 eN [] hok
              have hrest : openCount rest = 0 := by rw [← hdec]; exact hb
              rw [hsplit, openCount_append] at hbal
              have h1 : openCount (t :: rest) = 1 + openCount rest := by
                simp [openCount, hl]
              omega
            | cons rt rest2 =>
              rw [consumeRParenF] at h
              by_cases hr : rt.type = TokenType.RPAREN
              · rw [if_pos hr] at h
                simp at h
              · rw [if_neg hr] at h
                simp at h
        · rw [if_neg hl] at h
          by_cases hid : t.type = TokenType.ID
          · rw [if_pos hid] at h
            simp at h
          · rw [if_neg hid] at h
            simp at h
    · intro hne e h
      rw [parseT, pstep_error] at h
      rcases h with hF | ⟨fN, ts1, hok, h⟩
      · exact (ih ts0 c r hlast hbal hsplit hc).1 hne e hF
      · rw [pstep_error] at h
        rcases h with hT | ⟨tN, ts2, hok2, h⟩
        · have hdec := (parse_decomp fuel r).1 fN ts1 hok
          have hb := (parse_balance fuel r).1 fN ts1 hok
          refine (ih ts0 (c ++ leafTokens fN) ts1 hlast hbal ?_ ?_).2.2.2.2 e hT
          · rw [hsplit, ← hdec, List.append_assoc]
          · rw [openCount_append, hb]
            omega
        · simp at h
    · intro hne e h
      rw [parseE, pstep_error] at h
      rcases h with hT | ⟨tN, ts1, hok, h⟩
      · exact (ih ts0 c r hlast hbal hsplit hc).2.1 hne e hT
      · rw [pstep_error] at h
        rcases h with hE | ⟨eN, ts2, hok2, h⟩
        · have hdec := (parse_decomp fuel r).2.1 tN ts1 hok
          have hb := (parse_balance fuel r).2.1 tN ts1 hok
          refine (ih ts0 (c ++ leafTokens tN) ts1 hlast hbal ?_ ?_).2.2.2.1 e hE
          · rw [hsplit, ← hdec, List.append_assoc]
          · rw [openCount_append, hb]
            omega
        · simp at h
    · intro e h
      cases r with
      | nil =>
        rw [parseEPrime] at h
        simp at h
      | cons t rest =>
        rw [parseEPrime] at h
        by_cases hp : t.type = TokenType.PLUS
        · rw [if_pos hp, pstep_error] at h
          rcases h with hT | ⟨tN, ts1, hok, h⟩
          · refine (ih ts0 (c ++ [t]) rest hlast hbal (by rw [hsplit]; simp)
              ?_).2.1 ?_ e hT
            · rw [openCount_append]
              have h1 : openCount [t] = 0 := by simp [openCount, hp]
              omega
            · intro hrnil
              subst hrnil
              rw [hsplit] at hlast
              simp only [endsWithOp, List.getLast?_concat] at hlast
              rw [hp] at hlast
              simp [isOpType] at hlast
          · rw [pstep_error] at h
            rcases h with hE | ⟨eN, ts2, hok2, h⟩
            · have hdec := (parse_decomp fuel rest).2.1 tN ts1 hok
              have hb := (parse_balance fuel rest).2.1 tN ts1 hok
              refine (ih ts0 ((c ++ [t]) ++ leafTokens tN) ts1 hlast hbal ?_
                ?_).2.2.2.1 e hE
              · rw [hsplit, ← hdec]
                simp [List.append_assoc]
              · rw [openCount_append, openCount_append, hb]
                have h1 : openCount [t] = 0 := by simp [openCount, hp]
                omega
            · simp at h
        · rw [if_neg hp] at h
          simp at h
    · intro e h
      cases r with
      | nil =>
        rw [parseTPrime] at h
        simp at h
      | cons t rest =>
        rw [parseTPrime] at h
        by_cases hp : t.type = TokenType.MULTIPLY
        · rw [if_pos hp, pstep_error] at h
          rcases h with hF | ⟨fN, ts1, hok, h⟩
          · refine (ih ts0 (c ++ [t]) rest hlast hbal (by rw [hsplit]; simp)
              ?_).1 ?_ e hF
            · rw [openCount_append]
              have h1 : openCount [t] = 0 := by simp [openCount, hp]
              omega
            · intro hrnil
              subst hrnil
              rw [hsplit] at hlast
              simp only [endsWithOp, List.getLast?_concat] at hlast
              rw [hp] at hlast
              simp [isOpType] at hlast
          · rw [pstep_error] at h
            rcases h with hT | ⟨tN, ts2, hok2, h⟩
            · have hdec := (parse_decomp fuel rest).1 fN ts1 hok
              have hb := (parse_balance fuel rest).1 fN ts1 hok
              refine (ih ts0 ((c ++ [t]) ++ leafTokens fN) ts1 hlast hbal ?_
                ?_).2.2.2.2 e hT
              · rw [hsplit, ← hdec]
                simp [List.append_assoc]
              · rw [openCount_append, openCount_append, hb]
                have h1 : openCount [t] = 0 := by simp [openCount, hp]
                omega
            · simp at h
        · rw [if_neg hp] at h
          simp at h

/-- Claim C10: for a non-empty token sequence of grammar kinds that passes
the semantic pre-checks, the derivation never raises unexpected end of input,
and every post-pre-check parse failure is a syntax error (mismatched or
trailing token). -/
theorem claim_C10_no_unexpected_end (ts : List Token) (hne : ts ≠ [])
    (hkinds : ∀ t ∈ ts, t.type = TokenType.PLUS ∨ t.type = TokenType.MULTIPLY ∨
      t.type = TokenType.LPAREN ∨ t.type = TokenType.RPAREN ∨
      t.type = TokenType.ID)
    (hsem : performSemanticAnalysis ts = Except.ok ()) :
    (∀ e, parseTokens ts ≠ Except.error (ParseError.unexpectedEndOfInput e)) ∧
    ((∃ n v, parseTokens ts = Except.ok (n, v)) ∨
      (∃ m p f x, parseTokens ts =
        Except.error (ParseError.syntaxError m p f x))) := by
  obtain ⟨hlast, hbal⟩ := semanticAnalysis_ok_facts ts hsem
  have hmain := parse_no_end (parseFuel ts) ts [] ts hlast hbal rfl
    (by simp [openCount])
  cases ts with
  | nil => exact absurd rfl hne
  | cons t0 rest =>
    cases hE : parseE (parseFuel (t0 :: rest)) (t0 :: rest) with
    | error e =>
      have hpt : parseTokens (t0 :: rest) = Except.error e := by
        simp only [parseTokens, hsem, hE]
      rcases parse_error_shape (parseFuel (t0 :: rest)) (t0 :: rest) e
          (Or.inr (Or.inr (Or.inl hE))) with hfuel | ⟨s2, hend⟩ | ⟨m, p, f, x, hsyn⟩
      · subst hfuel
        exact absurd hE
          ((parse_fuel (parseFuel (t0 :: rest)) (t0 :: rest)).2.2.2.1
            (Nat.le_refl _))
      · subst hend
        exact absurd hE (hmain.2.2.1 (by simp) s2)
      · subst hsyn
        refine ⟨?_, Or.inr ⟨m, p, f, x, hpt⟩⟩
        intro e2 hcontra
        rw [hpt] at hcontra
        simp at hcontra
    | ok pr =>
      obtain ⟨root, remaining⟩ := pr
      cases remaining with
      | cons r rs =>
        have hpt : parseTokens (t0 :: rest) = Except.error (ParseError.syntaxError
            ("Unexpected tokens at end of input: " ++
              String.intercalate ", " ((r :: rs).map Token.value))
            (some r.position) (some r) none) := by
          simp only [parseTokens, hsem, hE]
        refine ⟨?_, Or.inr ⟨_, _, _, _, hpt⟩⟩
        intro e2 hcontra
        rw [hpt] at hcontra
        simp at hcontra
      | nil =>
        cases hev : evaluate root with
        | error u2 =>
          have hpt : parseTokens (t0 :: rest) = Except.error
              (ParseError.syntaxError "Unexpected parsing error" none none none) := by
            simp only [parseTokens, hsem, hE, hev]
          refine ⟨?_, Or.inr ⟨_, _, _, _, hpt⟩⟩
          intro e2 hcontra
          rw [hpt] at hcontra
          simp at hcontra
        | ok pr2 =>
          obtain ⟨root2, v⟩ := pr2
          have hpt : parseTokens (t0 :: rest) = Except.ok (root2, v) := by
            simp only [parseTokens, hsem, hE, hev]
          refine ⟨?_, Or.inl ⟨root2, v, hpt⟩⟩
          intro e2 hcontra
          rw [hpt] at hcontra
          simp at hcontra

/-- Witness for C10: the guarantee applied to the tokens of `(3)`. -/
theorem claim_C10_no_unexpected_end_witness :
    (∀ e, parseTokens [⟨TokenType.LPAREN, "(", 0⟩, ⟨TokenType.ID, "3", 1⟩,
        ⟨TokenType.RPAREN, ")", 2⟩] ≠
      Except.error (ParseError.unexpectedEndOfInput e)) ∧
    ((∃ n v, parseTokens [⟨TokenType.LPAREN, "(", 0⟩, ⟨TokenType.ID, "3", 1⟩,
        ⟨TokenType.RPAREN, ")", 2⟩] = Except.ok (n, v)) ∨
      (∃ m p f x, parseTokens [⟨TokenType.LPAREN, "(", 0⟩, ⟨TokenType.ID, "3", 1⟩,
        ⟨TokenType.RPAREN, ")", 2⟩] =
        Except.error (ParseError.syntaxError m p f x))) :=
  claim_C10_no_unexpected_end
    [⟨TokenType.LPAREN, "(", 0⟩, ⟨TokenType.ID, "3", 1⟩, ⟨TokenType.RPAREN, ")", 2⟩]
    (by decide)
    (by decide)
    (by rfl)

/-- Unique decomposition of a list around a marker character that does not
occur in the leading parts. -/
theorem append_marker_inj :
    ∀ (x1 y1 x2 y2 : List Char), '_' ∉ x1 → '_' ∉ x2 →
      x1 ++ '_' :: y1 = x2 ++ '_' :: y2 → x1 = x2 ∧ y1 = y2
  | [], y1, x2, y2 => by
    intro _ h2 h
    cases x2 with
    | nil =>
      simp only [List.nil_append, List.cons.injEq] at h
      exact ⟨rfl, h.2⟩
    | cons c x2t =>
      simp only [List.nil_append, List.cons_append, List.cons.injEq] at h
      exfalso
      apply h2
      rw [← h.1]
      exact List.mem_cons_self _ _
  | c :: x1t, y1, x2, y2 => by
    intro h1 h2 h
    cases x2 with
    | nil =>
      simp only [List.cons_append, List.nil_append, List.cons.injEq] at h
      exfalso
      apply h1
      rw [h.1]
      exact List.mem_cons_self _ _
    | cons c2 x2t =>
      simp only [List.cons_append, List.cons.injEq] at h
      obtain ⟨hc, hrest⟩ := h
      subst hc
      obtain ⟨ha, hb⟩ := append_marker_inj x1t y1 x2t y2
        (fun hh => h1 (List.mem_cons_of_mem c hh))
        (fun hh => h2 (List.mem_cons_of_mem c hh)) hrest
      exact ⟨by rw [ha], hb⟩

/-- No token-type string contains an underscore. -/
theorem tokenTypeStr_no_marker : ∀ k : TokenType, '_' ∉ (TokenType.str k).data := by
  intro k
  cases k <;> decide

/-- The token-type string determines the token type. -/
theorem tokenTypeStr_inj : ∀ k1 k2 : TokenType,
    TokenType.str k1 = TokenType.str k2 → k1 = k2 := by
  intro k1 k2 h
  cases k1 <;> cases k2 <;> revert h <;> decide

/-- The dictionary key `value_TYPE` determines both the value and the type. -/
theorem tokenKey_inj (v1 v2 : String) (k1 k2 : TokenType)
    (h : tokenKey v1 k1 = tokenKey v2 k2) : v1 = v2 ∧ k1 = k2 := by
  have hdata : v1.data ++ '_' :: (TokenType.str k1).data =
      v2.data ++ '_' :: (TokenType.str k2).data := by
    have h1 : (tokenKey v1 k1).data =
        v1.data ++ '_' :: (TokenType.str k1).data := by
      simp [tokenKey, String.data_append]
    have h2 : (tokenKey v2 k2).data =
        v2.data ++ '_' :: (TokenType.str k2).data := by
      simp [tokenKey, String.data_append]
    rw [← h1, ← h2, h]
  have hrev : (TokenType.str k1).data.reverse ++ '_' :: v1.data.reverse =
      (TokenType.str k2).data.reverse ++ '_' :: v2.data.reverse := by
    have := congrArg List.reverse hdata
    simpa [List.reverse_append] using this
  obtain ⟨ha, hb⟩ := append_marker_inj _ _ _ _
    (by simpa using tokenTypeStr_no_marker k1)
    (by simpa using tokenTypeStr_no_marker k2) hrev
  have hk : TokenType.str k1 = TokenType.str k2 := by
    have := congrArg List.reverse ha
    simpa [String.ext_iff] using this
  have hv : v1 = v2 := by
    have := congrArg List.reverse hb
    simpa [String.ext_iff] using this
  exact ⟨hv, tokenTypeStr_inj k1 k2 hk⟩

/-- Lookup after the in-place entry update. -/
theorem lookup_updateEntry :
    ∀ (es : List (String × SymbolTableEntry)) (key k2 : String) (t : Token),
      List.lookup k2 (updateEntry es key t) =
        if k2 = key then
          (List.lookup key es).map (fun e => e.add_occurrence t)
        else List.lookup k2 es
  | [], key, k2, t => by simp [updateEntry]
  | (k, e) :: rest, key, k2, t => by
    by_cases hk : k = key
    · subst hk
      rw [updateEntry, if_pos rfl]
      by_cases hk2 : k2 = k
      · subst hk2
        rw [List.lookup_cons_self, List.lookup_cons_self, if_pos rfl]
        rfl
      · rw [List.lookup_cons, beq_false_of_ne hk2, if_neg hk2,
          List.lookup_cons, beq_false_of_ne hk2]
    · rw [updateEntry, if_neg hk]
      by_cases hk2 : k2 = k
      · subst hk2
        rw [List.lookup_cons_self, if_neg hk, List.lookup_cons_self]
      · rw [List.lookup_cons, beq_false_of_ne hk2,
          lookup_updateEntry rest key k2 t]
        by_cases hkey : k2 = key
        · subst hkey
          rw [if_pos rfl, if_pos rfl, List.lookup_cons,
            beq_false_of_ne (fun hh => hk hh.symm)]
        · rw [if_neg hkey, if_neg hkey, List.lookup_cons, beq_false_of_ne hk2]

/-- The in-place entry update preserves the key sequence. -/
theorem updateEntry_keys :
    ∀ (es : List (String × SymbolTableEntry)) (key : String) (t : Token),
      (updateEntry es key t).map Prod.fst = es.map Prod.fst
  | [], key, t => rfl
  | (k, e) :: rest, key, t => by
    by_cases hk : k = key
    · simp [updateEntry, hk]
    · simp [updateEntry, hk, updateEntry_keys rest key t]

/-- The in-place entry update preserves the number of entries. -/
theorem updateEntry_length
    (es : List (String × SymbolTableEntry)) (key : String) (t : Token) :
    (updateEntry es key t).length = es.length := by
  have := congrArg List.length (updateEntry_keys es key t)
  simpa using this

/-- The in-place entry update adds one to the total count when the key is
present. -/
theorem sumCounts_updateEntry :
    ∀ (es : List (String × SymbolTableEntry)) (key : String) (t : Token)
      (e0 : SymbolTableEntry),
      List.lookup key es = some e0 →
      sumCounts (updateEntry es key t) = sumCounts es + 1
  | [], key, t, e0 => by simp [List.lookup]
  | (k, e) :: rest, key, t, e0 => by
    intro hl
    by_cases hk : k = key
    · subst hk
      rw [updateEntry, if_pos rfl]
      simp only [sumCounts, List.map_cons, List.sum_cons,
        SymbolTableEntry.add_occurrence]
      omega
    · rw [List.lookup_cons, beq_false_of_ne (fun hh => hk hh.symm)] at hl
      rw [updateEntry, if_neg hk]
      simp only [sumCounts, List.map_cons, List.sum_cons]
      have := sumCounts_updateEntry rest key t e0 hl
      simp only [sumCounts] at this
      omega

/-- Lookup in a dictionary extended at the end with one binding. -/
theorem lookup_append_single (es : List (String × SymbolTableEntry))
    (key k2 : String) (e : SymbolTableEntry) :
    List.lookup k2 (es ++ [(key, e)]) =
      ((List.lookup k2 es).or (if k2 = key then some e else none)) := by
  rw [List.lookup_append]
  by_cases hk : k2 = key
  · subst hk
    rw [List.lookup_cons_self, if_pos rfl]
  · rw [List.lookup_cons, beq_false_of_ne hk, if_neg hk]
    rfl

/-- An absent key does not occur among the dictionary keys. -/
theorem lookup_none_not_mem :
    ∀ (es : List (String × SymbolTableEntry)) (k : String),
      List.lookup k es = none → k ∉ es.map Prod.fst
  | [], k => by simp
  | (k1, e) :: rest, k => by
    intro h
    by_cases hk : k = k1
    · subst hk
      rw [List.lookup_cons_self] at h
      simp at h
    · rw [List.lookup_cons, beq_false_of_ne hk] at h
      simp only [List.map_cons, List.mem_cons]
      rintro (hh | hh)
      · exact hk hh
      · exact lookup_none_not_mem rest k h hh

/-- Adding one token preserves the symbol-table invariant. -/
theorem tableInv_add (st : SymbolTable) (vs : List Token) (t : Token)
    (hinv : TableInv st vs) :
    TableInv (st.add_token t) (validStep vs (TableOp.add t)) := by
  obtain ⟨hent, hex, htot, huniq, hsum, hkinds, hnodup⟩ := hinv
  by_cases hval : t.is_valid = true
  · have hstep : validStep vs (TableOp.add t) = vs ++ [t] := by
      rw [validStep, if_pos hval]
    rw [hstep]
    have hft_ne : ∀ v k, tokenKey v k ≠ tokenKey t.value t.type →
        [t].filter (fun x => x.value == v && x.type == k) = [] := by
      intro v k hkeq
      have hc : (t.value == v && t.type == k) = false := by
        by_cases h1 : t.value = v
        · by_cases h2 : t.type = k
          · exact absurd (by rw [← h1, ← h2]) hkeq
          · simp [h2]
        · simp [h1]
      simp [List.filter, hc]
    have hft_eq : [t].filter
        (fun x => x.value == t.value && x.type == t.type) = [t] := by
      simp [List.filter]
    simp only [SymbolTable.add_token, hval, Bool.not_true, Bool.false_eq_true,
      if_false]
    cases hlook : List.lookup (tokenKey t.value t.type) st.entries with
    | some e0 =>
      dsimp only
      refine ⟨?_, ?_, ?_, ?_, ?_, ?_, ?_⟩
      · intro v k e hl
        rw [lookup_updateEntry] at hl
        by_cases hkeq : tokenKey v k = tokenKey t.value t.type
        · obtain ⟨hveq, hkeq2⟩ := tokenKey_inj v t.value k t.type hkeq
          subst hveq
          subst hkeq2
          rw [if_pos rfl, hlook] at hl
          simp only [Option.map_some'] at hl
          injection hl with hl
          obtain ⟨hc0, hp0, hne0⟩ := hent t.value t.type e0 hlook
          subst hl
          refine ⟨?_, ?_, ?_⟩
          · rw [List.filter_append, hft_eq]
            simp [SymbolTableEntry.add_occurrence, hc0]
          · rw [List.filter_append, hft_eq]
            simp [SymbolTableEntry.add_occurrence, hp0]
          · rw [List.filter_append, hft_eq]
            simp
        · rw [if_neg hkeq] at hl
          obtain ⟨hc0, hp0, hne0⟩ := hent v k e hl
          refine ⟨?_, ?_, ?_⟩
          · rw [List.filter_append, hft_ne v k hkeq, List.append_nil, hc0]
          · rw [List.filter_append, hft_ne v k hkeq, List.append_nil, hp0]
          · rw [List.filter_append, hft_ne v k hkeq, List.append_nil]
            exact hne0
      · intro v k hfne
        rw [lookup_updateEntry]
        by_cases hkeq : tokenKey v k = tokenKey t.value t.type
        · rw [if_pos hkeq, hlook]
          exact ⟨e0.add_occurrence t, rfl⟩
        · rw [if_neg hkeq]
          apply hex v k
          rw [List.filter_append, hft_ne v k hkeq, List.append_nil] at hfne
          exact hfne
      · simp [htot]
      · rw [updateEntry_length]
        exact huniq
      · rw [sumCounts_updateEntry st.entries _ t e0 hlook, hsum]
        simp
      · intro k
        dsimp only
        by_cases hk : k = t.type
        · subst hk
          rw [if_pos rfl, hkinds t.type, List.filter_append]
          simp
        · rw [if_neg hk, hkinds k, List.filter_append]
          have : [t].filter (fun x => x.type == k) = [] := by
            simp [List.filter, beq_false_of_ne (fun hh => hk hh.symm)]
          rw [this, List.append_nil]
      · rw [updateEntry_keys]
        exact hnodup
    | none =>
      dsimp only
      have hvs_empty : vs.filter
          (fun x => x.value == t.value && x.type == t.type) = [] := by
        by_contra hne2
        obtain ⟨e1, he1⟩ := hex t.value t.type hne2
        rw [hlook] at he1
        simp at he1
      refine ⟨?_, ?_, ?_, ?_, ?_, ?_, ?_⟩
      · intro v k e hl
        rw [lookup_append_single] at hl
        by_cases hkeq : tokenKey v k = tokenKey t.value t.type
        · obtain ⟨hveq, hkeq2⟩ := tokenKey_inj v t.value k t.type hkeq
          subst hveq
          subst hkeq2
          rw [hlook, if_pos rfl] at hl
          simp only [Option.or] at hl
          injection hl with hl
          subst hl
          refine ⟨?_, ?_, ?_⟩
          · rw [List.filter_append, hft_eq, hvs_empty]
            rfl
          · rw [List.filter_append, hft_eq, hvs_empty]
            rfl
          · rw [List.filter_append, hft_eq, hvs_empty]
            simp
        · rw [if_neg hkeq] at hl
          have hl2 : List.lookup (tokenKey v k) st.entries = some e := by
            cases hcase : List.lookup (tokenKey v k) st.entries with
            | some e1 => rw [hcase] at hl; simpa using hl
            | none => rw [hcase] at hl; simp at hl
          obtain ⟨hc0, hp0, hne0⟩ := hent v k e hl2
          refine ⟨?_, ?_, ?_⟩
          · rw [List.filter_append, hft_ne v k hkeq, List.append_nil, hc0]
          · rw [List.filter_append, hft_ne v k hkeq, List.append_nil, hp0]
          · rw [List.filter_append, hft_ne v k hkeq, List.append_nil]
            exact hne0
      · intro v k hfne
        rw [lookup_append_single]
        by_cases hkeq : tokenKey v k = tokenKey t.value t.type
        · rw [hkeq, hlook, if_pos rfl]
          exact ⟨SymbolTableEntry.ofToken t, rfl⟩
        · rw [List.filter_append, hft_ne v k hkeq, List.append_nil] at hfne
          obtain ⟨e1, he1⟩ := hex v k hfne
          rw [he1]
          exact ⟨e1, rfl⟩
      · simp [htot]
      · simp [huniq]
      · simp only [sumCounts, List.map_append, List.sum_append, List.map_cons,
          List.sum_cons, List.map_nil, List.sum_nil, SymbolTableEntry.ofToken]
        simp only [sumCounts] at hsum
        simp [hsum]
      · intro k
        dsimp only
        by_cases hk : k = t.type
        · subst hk
          rw [if_pos rfl, hkinds t.type, List.filter_append]
          simp
        · rw [if_neg hk, hkinds k, List.filter_append]
          have : [t].filter (fun x => x.type == k) = [] := by
            simp [List.filter, beq_false_of_ne (fun hh => hk hh.symm)]
          rw [this, List.append_nil]
      · rw [List.map_append]
        refine List.Nodup.append hnodup (by simp) ?_
        simp only [List.map_cons, List.map_nil, List.disjoint_singleton]
        exact lookup_none_not_mem st.entries _ hlook
  · have hvf : t.is_valid = false := by simpa using hval
    have hstep : validStep vs (TableOp.add t) = vs := by
      rw [validStep, if_neg (by simp [hvf])]
    rw [hstep]
    have hadd : st.add_token t = st := by
      simp [SymbolTable.add_token, hvf]
    rw [hadd]
    exact ⟨hent, hex, htot, huniq, hsum, hkinds, hnodup⟩

/-- The fresh table satisfies the invariant for the empty history. -/
theorem tableInv_empty : TableInv SymbolTable.empty [] := by
  refine ⟨?_, ?_, rfl, rfl, rfl, fun k => rfl, by simp [SymbolTable.empty]⟩
  · intro v k e h
    simp [SymbolTable.empty] at h
  · intro v k h
    simp at h

/-- The invariant is preserved by any sequence of API calls. -/
theorem foldl_tableInv :
    ∀ (ops : List TableOp) (st : SymbolTable) (vs : List Token),
      TableInv st vs →
      TableInv (ops.foldl applyOp st) (ops.foldl validStep vs)
  | [], st, vs => fun h => h
  | op :: rest, st, vs => fun h => by
    rw [List.foldl_cons, List.foldl_cons]
    refine foldl_tableInv rest _ _ ?_
    cases op with
    | add t => exact tableInv_add st vs t h
    | clear => exact tableInv_empty

/-- The table reached by any call sequence satisfies the invariant for the
valid tokens added since the last clear. -/
theorem runOps_tableInv (ops : List TableOp) :
    TableInv (runOps ops) (validSince ops) :=
  foldl_tableInv ops SymbolTable.empty [] tableInv_empty

/-- Claim C7: after every sequence of `add_token` and `clear` calls the
symbol table has exactly one entry per distinct `(value, kind)` pair among
the valid tokens added since the last clear, with the occurrence count and
the positions in insertion order; adding an Invalid-kind token leaves the
table unchanged; and `total_tokens` is the sum of the entry counts while
`unique_tokens` is the number of entries. -/
theorem claim_C7_symbol_table_invariants (ops : List TableOp) :
    (∀ v k e, List.lookup (tokenKey v k) (runOps ops).entries = some e →
      e.count =
        ((validSince ops).filter (fun t => t.value == v && t.type == k)).length ∧
      e.positions = ((validSince ops).filter
        (fun t => t.value == v && t.type == k)).map Token.position) ∧
    (∀ v k, (validSince ops).filter (fun t => t.value == v && t.type == k) ≠ [] →
      ∃ e, List.lookup (tokenKey v k) (runOps ops).entries = some e) ∧
    ((runOps ops).entries.map Prod.fst).Nodup ∧
    (∀ (st : SymbolTable) (t : Token), t.type = TokenType.INVALID →
      st.add_token t = st) ∧
    (runOps ops).total_tokens = sumCounts (runOps ops).entries ∧
    (runOps ops).unique_tokens = (runOps ops).entries.length := by
  obtain ⟨hent, hex, htot, huniq, hsum, hkinds, hnodup⟩ := runOps_tableInv ops
  refine ⟨?_, hex, hnodup, ?_, ?_, huniq⟩
  · intro v k e h
    obtain ⟨h1, h2, -⟩ := hent v k e h
    exact ⟨h1, h2⟩
  · intro st t h
    simp [SymbolTable.add_token, Token.is_valid, h]
  · rw [htot, hsum]

/-- Witness for C7: the invariants at a concrete call history
`add id-a, add plus, add id-a, add invalid`. -/
theorem claim_C7_symbol_table_invariants_witness :
    (∃ e, List.lookup (tokenKey "a" TokenType.ID)
        (runOps [TableOp.add ⟨TokenType.ID, "a", 0⟩,
          TableOp.add ⟨TokenType.PLUS, "+", 1⟩,
          TableOp.add ⟨TokenType.ID, "a", 2⟩,
          TableOp.add ⟨TokenType.INVALID, "%", 3⟩]).entries = some e ∧
      e.count = 2 ∧ e.positions = [0, 2]) ∧
    SymbolTable.add_token
        (runOps [TableOp.add ⟨TokenType.ID, "a", 0⟩])
        ⟨TokenType.INVALID, "%", 3⟩ =
      runOps [TableOp.add ⟨TokenType.ID, "a", 0⟩] ∧
    (runOps [TableOp.add ⟨TokenType.ID, "a", 0⟩,
      TableOp.add ⟨TokenType.PLUS, "+", 1⟩,
      TableOp.add ⟨TokenType.ID, "a", 2⟩]).total_tokens =
      sumCounts (runOps [TableOp.add ⟨TokenType.ID, "a", 0⟩,
        TableOp.add ⟨TokenType.PLUS, "+", 1⟩,
        TableOp.add ⟨TokenType.ID, "a", 2⟩]).entries := by
  have hops := claim_C7_symbol_table_invariants
    [TableOp.add ⟨TokenType.ID, "a", 0⟩, TableOp.add ⟨TokenType.PLUS, "+", 1⟩,
      TableOp.add ⟨TokenType.ID, "a", 2⟩, TableOp.add ⟨TokenType.INVALID, "%", 3⟩]
  refine ⟨?_, ?_, ?_⟩
  · obtain ⟨e, he⟩ := hops.2.1 "a" TokenType.ID (by decide)
    obtain ⟨h1, h2⟩ := hops.1 "a" TokenType.ID e he
    exact ⟨e, he, by rw [h1]; decide, by rw [h2]; decide⟩
  · exact (claim_C7_symbol_table_invariants
      [TableOp.add ⟨TokenType.ID, "a", 0⟩]).2.2.2.1
      (runOps [TableOp.add ⟨TokenType.ID, "a", 0⟩])
      ⟨TokenType.INVALID, "%", 3⟩ rfl
  · exact (claim_C7_symbol_table_invariants
      [TableOp.add ⟨TokenType.ID, "a", 0⟩, TableOp.add ⟨TokenType.PLUS, "+", 1⟩,
        TableOp.add ⟨TokenType.ID, "a", 2⟩]).2.2.2.2.1

end LexParse
